import Mathlib

/-!
Verification of the Obsidian note-vault MCP server (`ts/src/obsidian.ts`).

The development shallowly embeds the server's path handling, vault guard,
note store, search engine and tool dispatcher.  Strings are modelled by
Lean `String` (a list of characters); the Node.js `path.posix` functions
used by the server (`normalize`, `join`, `isAbsolute`, `extname`,
`relative`, `resolve`) are reimplemented faithfully over `List Char`.
The file system is modelled as an association list from absolute path
strings to file states; a file state may be readable or unreadable so
that non-ENOENT read failures are representable.
-/

/-- JavaScript `String.prototype.startsWith`. -/
def jsStartsWith (s pre : String) : Bool :=
  pre.data.isPrefixOf s.data

/-- JavaScript `String.prototype.endsWith`. -/
def jsEndsWith (s suf : String) : Bool :=
  suf.data.isSuffixOf s.data

/-- JavaScript `String.prototype.includes` (substring test). -/
def jsIncludes (s sub : String) : Bool :=
  decide (sub.data <:+: s.data)

/-- JavaScript `String.prototype.toLowerCase`, restricted to the ASCII
range actually exercised by note names and queries. -/
def jsToLower (s : String) : String :=
  ⟨s.data.map Char.toLower⟩

/-- JavaScript `name.slice(0, -3)`: drop the final three characters
(used by `findNotes` to strip the `.md` extension). -/
def jsSliceDrop3 (s : String) : String :=
  ⟨s.data.take (s.data.length - 3)⟩

/-- JavaScript `Array.prototype.join` with a separator string. -/
def jsJoin (sep : String) : List String → String
  | [] => ""
  | [s] => s
  | s :: rest => s ++ sep ++ jsJoin sep rest

/-- Split a character list at every `/`, like `String.prototype.split('/')`:
`splitSegs "a/b" = ["a","b"]`, `splitSegs "/a" = ["","a"]`. -/
def splitSegs : List Char → List (List Char)
  | [] => [[]]
  | c :: rest =>
    if c = '/' then [] :: splitSegs rest
    else
      match splitSegs rest with
      | s :: ss => (c :: s) :: ss
      | [] => [[c]]

/-- Segment cleaning of Node's `normalizeString`: drop empty and `.`
segments, resolve `..` against the accumulator; leading `..` segments are
kept only for relative paths (`allowAbove`). -/
def normSegsAux (allowAbove : Bool) : List (List Char) → List (List Char) → List (List Char)
  | [], acc => acc.reverse
  | s :: rest, acc =>
    if s = [] ∨ s = ['.'] then normSegsAux allowAbove rest acc
    else if s = ['.', '.'] then
      match acc with
      | [] => normSegsAux allowAbove rest (if allowAbove then [s] else [])
      | t :: acc2 =>
        if t = ['.', '.'] then normSegsAux allowAbove rest (s :: t :: acc2)
        else normSegsAux allowAbove rest acc2
    else normSegsAux allowAbove rest (s :: acc)

/-- Join segments with `/` separators (inverse of `splitSegs` on
slash-free segments). -/
def interSl : List (List Char) → List Char
  | [] => []
  | [s] => s
  | s :: rest => s ++ '/' :: interSl rest

/-- Node `path.posix.normalize` over character lists. -/
def normalizeL (p : List Char) : List Char :=
  if p = [] then ['.']
  else
    let isAbs := p.head? = some '/'
    let trail := p.getLast? = some '/'
    let segs := normSegsAux (!isAbs) (splitSegs p) []
    let core := interSl segs
    if core = [] then
      if isAbs then ['/'] else if trail then ['.', '/'] else ['.']
    else
      (if isAbs then '/' :: core else core) ++ (if trail then ['/'] else [])

/-- Node `path.posix.normalize`. -/
def pnormalize (s : String) : String := ⟨normalizeL s.data⟩

/-- Node `path.posix.isAbsolute`. -/
def isAbsolute (s : String) : Bool := jsStartsWith s "/"

/-- Node `path.posix.join` for two arguments: empty parts are dropped,
the rest are joined with `/` and normalized; `join('','') = '.'`. -/
def pjoin (a b : String) : String :=
  if a = "" then (if b = "" then "." else pnormalize b)
  else if b = "" then pnormalize a
  else pnormalize (a ++ "/" ++ b)

/-- The final maximal run of non-`/` characters of a path, ignoring
trailing slashes (the region Node's `extname` scans). -/
def baseRun (p : List Char) : List Char :=
  ((p.reverse.dropWhile (fun c => c = '/')).takeWhile (fun c => c ≠ '/')).reverse

/-- Extension of a base name, per Node's `extname` scan: empty when the
base has no dot, when its rightmost dot is its first character (dotfiles
such as `.md`), or when the base is `..`; otherwise the suffix from the
rightmost dot. -/
def extOfBase (b : List Char) : List Char :=
  let revAfter := b.reverse.takeWhile (fun c => c ≠ '.')
  if revAfter.length = b.length then []
  else if b.length - revAfter.length - 1 = 0 then []
  else if b = ['.', '.'] then []
  else '.' :: revAfter.reverse

/-- Node `path.posix.extname` over character lists. -/
def extnameL (p : List Char) : List Char := extOfBase (baseRun p)

/-- Node `path.posix.extname`. -/
def extname (s : String) : String := ⟨extnameL s.data⟩

/-- Segments of an absolute path after `path.posix.resolve` cleaning. -/
def segsOfAbs (p : String) : List (List Char) :=
  normSegsAux false (splitSegs p.data) []

/-- Node `path.posix.resolve` on an already absolute path: normalize and
drop any trailing slash. -/
def resolveAbs (p : String) : String :=
  ⟨'/' :: interSl (segsOfAbs p)⟩

/-- Segment walk of Node `path.posix.relative`: strip the common prefix,
then climb with `..` and descend into the remainder. -/
def relGo : List (List Char) → List (List Char) → List Char
  | [], ts => interSl ts
  | _ :: fs, [] => interSl (List.replicate (fs.length + 1) ['.', '.'])
  | a :: fs, b :: ts =>
    if a = b then relGo fs ts
    else interSl (List.replicate (fs.length + 1) ['.', '.'] ++ b :: ts)

/-- Node `path.posix.relative` for absolute arguments (the only use in
the server: both arguments start at the vault root). -/
def relative (f t : String) : String :=
  if resolveAbs f = resolveAbs t then ""
  else ⟨relGo (segsOfAbs f) (segsOfAbs t)⟩

/-- The `fullPath` local of `validatePath` (lines 40-42): absolute
inputs are normalized, relative inputs are joined to the vault root. -/
def vfull (root notePath : String) : String :=
  if isAbsolute notePath then pnormalize notePath else pjoin root notePath

/-- `validatePath` of `obsidian.ts` (lines 38-54): a full path that does
not `startsWith` the root raises the access-denied error; afterwards the
`.md` extension is appended unless `extname` already reports exactly
`.md`. -/
def validatePath (root notePath : String) : Except String String :=
  if jsStartsWith (vfull root notePath) root then
    .ok (if extname (vfull root notePath) = ".md" then vfull root notePath
         else vfull root notePath ++ ".md")
  else
    .error ("Access denied - path outside Obsidian vault: " ++ vfull root notePath)

/-- Modelled from the claim wording of C1: a path lies inside the vault
directory when the root followed by a separator is a prefix of it. -/
def insideDir (root p : String) : Bool :=
  jsStartsWith p (root ++ "/")

/-- The characters accepted by the extraction regex flag group
`[gimuy]`. -/
def isRegexFlag (c : Char) : Bool :=
  c = 'g' || c = 'i' || c = 'm' || c = 'u' || c = 'y'

/-- The regex-query test of `findNotes` (lines 158-167): the search term
starts with `/` and ends with `/`, `/i`, `/g`, `/gi` or `/ig`. -/
def codeIsRegex (s : String) : Bool :=
  jsStartsWith s "/" &&
    (jsEndsWith s "/" || jsEndsWith s "/i" || jsEndsWith s "/g" ||
      jsEndsWith s "/gi" || jsEndsWith s "/ig")

/-- Modelled from the claim wording of C2: a query is a delimited regular
expression when it begins with `/` and ends with `/` followed by any
combination of flags drawn from `{g, i, m, u, y}` (reading the query
backwards: flag characters until a `/`). -/
def revFlagSlash : List Char → Bool
  | [] => false
  | c :: rest => if c = '/' then true else isRegexFlag c && revFlagSlash rest

/-- Modelled from the claim wording of C2 (see `revFlagSlash`). -/
def specRegexQuery (s : String) : Bool :=
  jsStartsWith s "/" && revFlagSlash s.data.reverse

/-- A JavaScript line terminator: `.` in a regular expression without
the `s` flag matches any character except these. -/
def isLineTerm (c : Char) : Bool :=
  c = '\n' || c = '\r' || c = '\u2028' || c = '\u2029'

/-- The positional split of `searchTerm` against
`^\/(.*)\/([gimuy]*)$` (line 171): with a greedy `(.*)`, the flag
group starts after the last `/` that is followed only by flag
characters; the leading `/` may not serve as that delimiter.  This is
the only candidate split, because every valid delimiter must be
followed by flag characters alone. -/
def rawRegexSplit (cs : List Char) : Option (List Char × List Char) :=
  match cs with
  | [] => none
  | c :: rest =>
    if c = '/' then
      match (rest.reverse).drop ((rest.reverse).takeWhile isRegexFlag).length with
      | d :: rem =>
        if d = '/' then
          some (rem.reverse, ((rest.reverse).takeWhile isRegexFlag).reverse)
        else none
      | [] => none
    else none

/-- The full match of `searchTerm` against `^\/(.*)\/([gimuy]*)$`
(line 171): beyond the positional split, JavaScript `.` never matches a
line terminator, so the match also fails whenever the pattern part
contains one. -/
def extractRegexL (cs : List Char) : Option (List Char × List Char) :=
  match rawRegexSplit cs with
  | some (p, fl) => if p.all (fun c => !isLineTerm c) then some (p, fl) else none
  | none => none

/-- Pattern and flags extracted from a `/pattern/flags` query. -/
def extractRegex (s : String) : Option (String × String) :=
  match extractRegexL s.data with
  | some (p, fl) => some (⟨p⟩, ⟨fl⟩)
  | none => none

/-- An abstract JavaScript regular-expression engine: `compiles p fl`
says whether `new RegExp(p, fl)` succeeds, and `test p fl s` is
`new RegExp(p, fl).test(s)`. -/
structure RegexEngine where
  compiles : String → String → Bool
  test : String → String → String → Bool

/-- The literal branch of `findNotes` (lines 179-184 and the catch
fallback 187-192): case-insensitive substring match against the stripped
or the full file name. -/
def litMatch (q stripped full : String) : Bool :=
  jsIncludes (jsToLower stripped) (jsToLower q) ||
    jsIncludes (jsToLower full) (jsToLower q)

/-- Whether `findNotes` pushes a `.md` file named `name` for query `q`
(lines 152-193): regex queries are extracted and tested against the
stripped and full names, a failing `new RegExp` falls back to the literal
branch, a failing extraction pushes nothing, and non-regex queries use
the literal branch. -/
def matchEntry (E : RegexEngine) (q name : String) : Bool :=
  if codeIsRegex q then
    match extractRegex q with
    | some (p, fl) =>
      if E.compiles p fl then
        E.test p fl (jsSliceDrop3 name) || E.test p fl name
      else litMatch q (jsSliceDrop3 name) name
    | none => false
  else litMatch q (jsSliceDrop3 name) name

/-- A directory entry as produced by `fs.readdir` with file types. -/
inductive Entry where
  | file (name : String)
  | dir (name : String) (children : List Entry)
deriving Repr

/-- `searchDirectory` of `findNotes` (lines 137-198): a depth-first walk
that skips directories whose name starts with `.`, considers files whose
name ends with `.md`, and accumulates absolute paths of matches in
traversal order. -/
def searchDirectory (E : RegexEngine) (q : String) : String → List Entry → List String
  | _, [] => []
  | d, .dir n ch :: rest =>
    (if jsStartsWith n "." then [] else searchDirectory E q (pjoin d n) ch) ++
      searchDirectory E q d rest
  | d, .file n :: rest =>
    (if jsEndsWith n ".md" && matchEntry E q n then [pjoin d n] else []) ++
      searchDirectory E q d rest

/-- A well-formed name as returned by `readdir`: nonempty, without `/`,
and neither `.` nor `..`. -/
def wfNameB (n : String) : Bool :=
  n.data ≠ [] && '/' ∉ n.data && n ≠ "." && n ≠ ".."

/-- A well-formed directory tree: every entry name is well formed. -/
def wfEntriesB : List Entry → Bool
  | [] => true
  | .file n :: rest => wfNameB n && wfEntriesB rest
  | .dir n ch :: rest => wfNameB n && wfEntriesB ch && wfEntriesB rest

/-- Modelled from the spec wording of §4.6 for C8: the declarative
search walk, producing root-relative paths: skip dot directories, keep
`.md` files whose stripped or full name contains the query
case-insensitively, in traversal order. -/
def specSearch (q : String) : List Entry → List String
  | [] => []
  | .dir n ch :: rest =>
    (if jsStartsWith n "." then []
     else (specSearch q ch).map (fun r => n ++ "/" ++ r)) ++ specSearch q rest
  | .file n :: rest =>
    (if jsEndsWith n ".md" && litMatch q (jsSliceDrop3 n) n then [n] else []) ++
      specSearch q rest

/-- State of a file on disk: present and readable with some content, or
present but failing to read (e.g. a permission error carrying the given
message). -/
inductive FileState where
  | readable (content : String)
  | unreadable (errMsg : String)
deriving Repr, DecidableEq

/-- The disk as seen by the server: a map from absolute path strings to
file states, together with the directory tree walked by `findNotes`. -/
structure World where
  files : List (String × FileState)
  tree : List Entry

/-- Association-list lookup for the file map. -/
def fsLookup : List (String × FileState) → String → Option FileState
  | [], _ => none
  | (k, v) :: rest, p => if k = p then some v else fsLookup rest p

/-- `fs.writeFile`: afterwards the path holds exactly the new content. -/
def fsWrite (files : List (String × FileState)) (p c : String) :
    List (String × FileState) :=
  (p, FileState.readable c) :: files.filter (fun e => e.1 ≠ p)

/-- `fs.readFile`: fails with ENOENT on a missing path and with the
recorded message on an unreadable one. -/
def fsReadFile (files : List (String × FileState)) (p : String) :
    Except String String :=
  match fsLookup files p with
  | none => .error ("ENOENT: no such file or directory, open " ++ p)
  | some (.readable c) => .ok c
  | some (.unreadable e) => .error e

/-- `fs.unlink`: removes the path, failing with ENOENT when absent. -/
def fsUnlink (files : List (String × FileState)) (p : String) :
    Except String (List (String × FileState)) :=
  match fsLookup files p with
  | none => .error ("ENOENT: no such file or directory, unlink " ++ p)
  | some _ => .ok (files.filter (fun e => e.1 ≠ p))

/-- One content block of a tool response. -/
structure Block where
  text : String
deriving Repr, DecidableEq

/-- A tool response: content blocks plus the `isError` marker (absent,
i.e. `false`, on success). -/
structure Response where
  content : List Block
  isError : Bool
deriving Repr, DecidableEq

/-- Arguments of a tool call after `safeParse`: one constructor per tool
schema, plus `malformed` for argument objects rejected by the schema. -/
inductive ToolArgs where
  | writeNote (path content : String) (append : Bool)
  | deleteNote (path : String)
  | readNotes (paths : List String)
  | searchNotes (query : String)
  | malformed
deriving Repr

/-- A decoded tool-call request. -/
structure Request where
  name : String
  args : ToolArgs

/-- The `write_note` handler (lines 208-251): validate, create parents
(a no-op on the flat file map), then write; with `append` a successful
read prepends the old content and the separator, and any read failure
falls through to writing just the new content.  The separator is the
source's literal `'\\n\\n'`: the four characters backslash-n
backslash-n, not a blank line. -/
def writeNoteOp (w : World) (root p content : String) (append : Bool) :
    Except String (World × List Block) := do
  let validPath ← validatePath root p
  let files2 :=
    if append then
      match fsReadFile w.files validPath with
      | .ok existing => fsWrite w.files validPath (existing ++ "\\n\\n" ++ content)
      | .error _ => fsWrite w.files validPath content
    else fsWrite w.files validPath content
  pure ({ w with files := files2 },
    [⟨"Successfully " ++ (if append then "appended to" else "wrote") ++
        " note: " ++ relative root validPath⟩])

/-- The `delete_note` handler (lines 253-281): validate, unlink, and
wrap an unlink failure in a `Failed to delete note:` error. -/
def deleteNoteOp (w : World) (root p : String) :
    Except String (World × List Block) := do
  let validPath ← validatePath root p
  match fsUnlink w.files validPath with
  | .ok files2 =>
    pure ({ w with files := files2 },
      [⟨"Successfully deleted note: " ++ relative root validPath⟩])
  | .error e => throw ("Failed to delete note: " ++ e)

/-- One item of the `read_notes` batch (lines 290-302): a successful
read is rendered with its relative path header, any failure (guard or
read) becomes the inline error string for that path. -/
def readNoteItem (files : List (String × FileState)) (root p : String) : String :=
  match validatePath root p with
  | .error e => "Error reading note " ++ p ++ ": " ++ e
  | .ok validPath =>
    match fsReadFile files validPath with
    | .error e => "Error reading note " ++ p ++ ": " ++ e
    | .ok content => "# " ++ relative root validPath ++ "\\n\\n" ++ content ++ "\\n"

/-- The `read_notes` handler (lines 283-308): all items are rendered and
joined with the source's literal `'\\n---\\n'` separator into a single
text block; the handler itself never fails. -/
def readNotesOp (w : World) (root : String) (paths : List String) :
    Except String (World × List Block) :=
  pure (w, [⟨jsJoin "\\n---\\n" (paths.map (readNoteItem w.files root))⟩])

/-- The `search_notes` handler (lines 310-336): run `findNotes` from the
vault root, relativize the hits, and render the summary text. -/
def searchNotesOp (E : RegexEngine) (w : World) (root q : String) :
    Except String (World × List Block) :=
  let rels := (searchDirectory E q root w.tree).map (fun p => relative root p)
  pure (w,
    [⟨if rels.length > 0 then
        "Found " ++ toString rels.length ++ " notes:\\n" ++ jsJoin "\\n" rels
      else "No notes found matching \"" ++ q ++ "\""⟩])

/-- The names registered in the tool catalog (lines 105-133). -/
def knownTools : List String :=
  ["write_note", "delete_note", "read_notes", "search_notes"]

/-- The body of the `CallToolRequestSchema` handler's `try` block (lines
204-340): dispatch on the tool name, reject malformed arguments, and
fall through to the `Unknown tool` error. -/
def dispatch (E : RegexEngine) (root : String) (w : World) (req : Request) :
    Except String (World × List Block) :=
  if req.name = "write_note" then
    match req.args with
    | .writeNote p c a => writeNoteOp w root p c a
    | _ => throw "Invalid arguments for write_note"
  else if req.name = "delete_note" then
    match req.args with
    | .deleteNote p => deleteNoteOp w root p
    | _ => throw "Invalid arguments for delete_note"
  else if req.name = "read_notes" then
    match req.args with
    | .readNotes ps => readNotesOp w root ps
    | _ => throw "Invalid arguments for read_notes"
  else if req.name = "search_notes" then
    match req.args with
    | .searchNotes q => searchNotesOp E w root q
    | _ => throw "Invalid arguments for search_notes"
  else throw ("Unknown tool: " ++ req.name)

/-- The full `CallToolRequestSchema` handler (lines 203-348): the catch
block converts any error thrown below into a single `Error:` text block
marked `isError: true`; exactly one response is produced per request. -/
def callTool (E : RegexEngine) (root : String) (w : World) (req : Request) :
    World × Response :=
  match dispatch E root w req with
  | .ok (w2, blocks) => (w2, ⟨blocks, false⟩)
  | .error msg => (w, ⟨[⟨"Error: " ++ msg⟩], true⟩)

/-- A plain path segment: nonempty, slash-free, and neither `.` nor
`..` — the segments on which path normalization is the identity. -/
def plainSeg (s : List Char) : Prop :=
  s ≠ [] ∧ '/' ∉ s ∧ s ≠ ['.'] ∧ s ≠ ['.', '.']

instance : DecidablePred plainSeg := fun s => by
  unfold plainSeg; infer_instance

/-- All segments of a list are plain. -/
def plainSegs (l : List (List Char)) : Prop :=
  ∀ s ∈ l, plainSeg s

instance : DecidablePred plainSegs := fun l => by
  unfold plainSegs; infer_instance

/-- A regex engine on which every compilation fails — the worst case for
the silent-fallback path; any `RegexEngine` instance may replace it. -/
def trivialEngine : RegexEngine :=
  ⟨fun _ _ => false, fun _ _ _ => false⟩

/-- A disk with no files and an empty vault tree. -/
def emptyWorld : World := ⟨[], []⟩

instance instDecEqExceptStr : DecidableEq (Except String String) := fun a b =>
  match a, b with
  | .ok x, .ok y =>
    match decEq x y with
    | isTrue h => isTrue (h ▸ rfl)
    | isFalse h => isFalse (fun he => h (by injection he))
  | .error x, .error y =>
    match decEq x y with
    | isTrue h => isTrue (h ▸ rfl)
    | isFalse h => isFalse (fun he => h (by injection he))
  | .ok _, .error _ => isFalse (by simp)
  | .error _, .ok _ => isFalse (by simp)

theorem strData_append (a b : String) : (a ++ b).data = a.data ++ b.data := rfl

theorem strMk_append (a b : List Char) :
    (⟨a ++ b⟩ : String) = (⟨a⟩ : String) ++ (⟨b⟩ : String) := rfl

theorem jsStartsWith_of_data (s pre : String) (t : List Char)
    (h : s.data = pre.data ++ t) : jsStartsWith s pre = true := by
  unfold jsStartsWith
  rw [List.isPrefixOf_iff_prefix, h]
  exact List.prefix_append _ _

theorem jsStartsWith_iff (s pre : String) :
    jsStartsWith s pre = true ↔ pre.data <+: s.data := by
  unfold jsStartsWith; exact List.isPrefixOf_iff_prefix

theorem jsEndsWith_iff (s suf : String) :
    jsEndsWith s suf = true ↔ suf.data <:+ s.data := by
  unfold jsEndsWith; exact List.isSuffixOf_iff_suffix

theorem jsEndsWith_of_data (s suf : String) (t : List Char)
    (h : s.data = t ++ suf.data) : jsEndsWith s suf = true := by
  rw [jsEndsWith_iff]
  exact ⟨t, h.symm⟩

theorem splitSegs_ne_nil (l : List Char) : splitSegs l ≠ [] := by
  match l with
  | [] => simp [splitSegs]
  | c :: rest =>
    unfold splitSegs
    by_cases hc : c = '/'
    · simp [hc]
    · simp only [hc, if_false]
      cases h : splitSegs rest <;> simp

theorem splitSegs_cons_slash (rest : List Char) :
    splitSegs ('/' :: rest) = [] :: splitSegs rest := by
  simp [splitSegs]

theorem splitSegs_cons_other (c : Char) (rest : List Char) (hc : c ≠ '/') :
    splitSegs (c :: rest) =
      match splitSegs rest with
      | s :: ss => (c :: s) :: ss
      | [] => [[c]] := by
  simp [splitSegs, hc]

theorem splitSegs_append_slash (a b : List Char) :
    splitSegs (a ++ '/' :: b) = splitSegs a ++ splitSegs b := by
  induction a with
  | nil => simp [splitSegs_cons_slash, splitSegs]
  | cons c rest ih =>
    by_cases hc : c = '/'
    · subst hc
      rw [List.cons_append, splitSegs_cons_slash, splitSegs_cons_slash, ih,
        List.cons_append]
    · rw [List.cons_append, splitSegs_cons_other _ _ hc, ih,
        splitSegs_cons_other _ _ hc]
      cases h : splitSegs rest with
      | nil => exact absurd h (splitSegs_ne_nil rest)
      | cons s ss => simp

theorem splitSegs_no_slash (l : List Char) (h : '/' ∉ l) : splitSegs l = [l] := by
  induction l with
  | nil => simp [splitSegs]
  | cons c rest ih =>
    have hc : c ≠ '/' := fun hc => h (hc ▸ List.mem_cons_self c rest)
    have hr : '/' ∉ rest := fun hr => h (List.mem_cons_of_mem c hr)
    rw [splitSegs_cons_other _ _ hc, ih hr]

theorem interSl_cons (s : List Char) (rest : List (List Char)) :
    interSl (s :: rest) = s ++ (if rest = [] then [] else '/' :: interSl rest) := by
  cases rest with
  | nil => simp [interSl]
  | cons t ts => simp [interSl]

theorem interSl_append (as bs : List (List Char)) (ha : as ≠ []) (hb : bs ≠ []) :
    interSl (as ++ bs) = interSl as ++ '/' :: interSl bs := by
  induction as with
  | nil => exact absurd rfl ha
  | cons s rest ih =>
    cases rest with
    | nil =>
      rw [List.singleton_append, interSl_cons s bs, interSl_cons s []]
      simp [hb]
    | cons t ts =>
      rw [List.cons_append, interSl_cons s ((t :: ts) ++ bs),
        interSl_cons s (t :: ts)]
      have h1 : (t :: ts) ++ bs ≠ [] := by simp
      have h2 : (t :: ts) ≠ ([] : List (List Char)) := by simp
      simp only [h1, h2, if_false]
      rw [ih (by simp)]
      simp

theorem splitSegs_interSl (segs : List (List Char)) (hne : segs ≠ [])
    (hs : ∀ s ∈ segs, '/' ∉ s) : splitSegs (interSl segs) = segs := by
  induction segs with
  | nil => exact absurd rfl hne
  | cons s rest ih =>
    cases rest with
    | nil => exact splitSegs_no_slash s (hs s (by simp))
    | cons t ts =>
      have : interSl (s :: t :: ts) = s ++ '/' :: interSl (t :: ts) := by
        simp [interSl]
      rw [this, splitSegs_append_slash, splitSegs_no_slash s (hs s (by simp)),
        ih (by simp) (fun u hu => hs u (List.mem_cons_of_mem s hu))]
      simp

theorem normSegsAux_nil_seg (ab : Bool) (rest : List (List Char))
    (acc : List (List Char)) :
    normSegsAux ab ([] :: rest) acc = normSegsAux ab rest acc := by
  simp [normSegsAux]

theorem normSegsAux_plain (ab : Bool) (segs : List (List Char))
    (h : plainSegs segs) : ∀ acc, normSegsAux ab segs acc = acc.reverse ++ segs := by
  induction segs with
  | nil => intro acc; simp [normSegsAux]
  | cons s rest ih =>
    intro acc
    obtain ⟨h1, _, h3, h4⟩ := h s (by simp)
    have hnd : ¬(s = [] ∨ s = ['.']) := by
      rintro (h' | h') <;> [exact h1 h'; exact h3 h']
    unfold normSegsAux
    simp only [hnd, if_false, h4, if_false]
    rw [ih (fun u hu => h u (List.mem_cons_of_mem s hu)) (s :: acc)]
    simp

theorem interSl_cons_ne_nil (s : List Char) (rest : List (List Char))
    (h : s ≠ []) : interSl (s :: rest) ≠ [] := by
  rw [interSl_cons]
  simp [h]

theorem getLast?_cons_of_getLast? (a c : Char) (l : List Char)
    (h : l.getLast? = some c) : (a :: l).getLast? = some c := by
  rw [List.getLast?_cons, h]
  simp

theorem getLast?_append_cons (l : List Char) (a c : Char) (X : List Char)
    (h : X.getLast? = some c) : (l ++ a :: X).getLast? = some c := by
  rw [List.getLast?_append, getLast?_cons_of_getLast? a c X h]
  simp

theorem interSl_getLast_plain (segs : List (List Char)) (hp : plainSegs segs)
    (hne : segs ≠ []) : ∃ c, (interSl segs).getLast? = some c ∧ c ≠ '/' := by
  induction segs with
  | nil => exact absurd rfl hne
  | cons s rest ih =>
    cases rest with
    | nil =>
      obtain ⟨h1, h2, _, _⟩ := hp s (by simp)
      refine ⟨s.getLast h1, ?_, ?_⟩
      · simp [interSl, List.getLast?_eq_getLast s h1]
      · exact fun hc => h2 (hc ▸ List.getLast_mem h1)
    | cons t ts =>
      obtain ⟨c, hc1, hc2⟩ := ih (fun u hu => hp u (List.mem_cons_of_mem s hu))
        (by simp)
      refine ⟨c, ?_, hc2⟩
      have heq : interSl (s :: t :: ts) = s ++ '/' :: interSl (t :: ts) := by
        simp [interSl]
      rw [heq]
      exact getLast?_append_cons s '/' c (interSl (t :: ts)) hc1

theorem interSl_append_ne_nil (rsegs psegs : List (List Char))
    (hr : plainSegs rsegs) (hp : plainSegs psegs) (hpne : psegs ≠ []) :
    interSl (rsegs ++ psegs) ≠ [] := by
  cases rsegs with
  | nil =>
    simp only [List.nil_append]
    cases psegs with
    | nil => exact absurd rfl hpne
    | cons s rest => exact interSl_cons_ne_nil s rest (hp s (by simp)).1
  | cons r rs =>
    rw [List.cons_append]
    exact interSl_cons_ne_nil r (rs ++ psegs) (hr r (by simp)).1

theorem normSegsAux_clean_abs (rsegs psegs : List (List Char))
    (hr : plainSegs rsegs) (hp : plainSegs psegs) (hpne : psegs ≠ []) :
    normSegsAux false (splitSegs ('/' :: interSl rsegs ++ '/' :: interSl psegs)) [] =
      rsegs ++ psegs := by
  have hall : plainSegs (rsegs ++ psegs) := by
    intro u hu
    rcases List.mem_append.mp hu with h | h
    · exact hr u h
    · exact hp u h
  have hps : splitSegs (interSl psegs) = psegs :=
    splitSegs_interSl psegs hpne (fun u hu => (hp u hu).2.1)
  rw [List.cons_append, splitSegs_cons_slash, splitSegs_append_slash, hps]
  cases rsegs with
  | nil =>
    rw [show interSl ([] : List (List Char)) = [] from rfl]
    rw [show splitSegs ([] : List Char) = [([] : List Char)] from rfl]
    rw [List.singleton_append, normSegsAux_nil_seg, normSegsAux_nil_seg]
    rw [normSegsAux_plain false psegs hp []]
    simp
  | cons r rs =>
    have hrs : splitSegs (interSl (r :: rs)) = r :: rs :=
      splitSegs_interSl (r :: rs) (by simp) (fun u hu => (hr u hu).2.1)
    rw [hrs, normSegsAux_nil_seg, normSegsAux_plain false _ hall []]
    simp

theorem pnormalize_clean_abs (rsegs psegs : List (List Char))
    (hr : plainSegs rsegs) (hp : plainSegs psegs) (hpne : psegs ≠ []) :
    normalizeL ('/' :: interSl rsegs ++ '/' :: interSl psegs) =
      '/' :: interSl (rsegs ++ psegs) := by
  obtain ⟨c, hc1, hc2⟩ := interSl_getLast_plain psegs hp hpne
  unfold normalizeL
  have hne : ('/' :: interSl rsegs ++ '/' :: interSl psegs) ≠ [] := by simp
  simp only [hne, if_false]
  have hhead : ('/' :: interSl rsegs ++ '/' :: interSl psegs).head? = some '/' := rfl
  have htrail : ('/' :: interSl rsegs ++ '/' :: interSl psegs).getLast? = some c := by
    rw [show ('/' :: interSl rsegs ++ '/' :: interSl psegs : List Char) =
      ('/' :: interSl rsegs) ++ '/' :: interSl psegs from rfl]
    exact getLast?_append_cons _ '/' c _ hc1
  rw [hhead, htrail]
  simp only [decide_True, Bool.not_true]
  rw [normSegsAux_clean_abs rsegs psegs hr hp hpne]
  have hcore := interSl_append_ne_nil rsegs psegs hr hp hpne
  simp only [hcore, if_false, if_true]
  rw [if_neg (by simp [hc2] : ¬(some c = some '/'))]
  simp

theorem strMk_ne_empty (l : List Char) (h : l ≠ []) : (⟨l⟩ : String) ≠ "" := by
  intro he
  exact h (congrArg String.data he)

theorem pjoin_clean (rsegs psegs : List (List Char))
    (hr : plainSegs rsegs) (hp : plainSegs psegs) (hpne : psegs ≠ []) :
    pjoin ⟨'/' :: interSl rsegs⟩ ⟨interSl psegs⟩ =
      ⟨'/' :: interSl (rsegs ++ psegs)⟩ := by
  have hb : (⟨interSl psegs⟩ : String) ≠ "" := by
    apply strMk_ne_empty
    cases psegs with
    | nil => exact absurd rfl hpne
    | cons s rest => exact interSl_cons_ne_nil s rest (hp s (by simp)).1
  have ha : (⟨'/' :: interSl rsegs⟩ : String) ≠ "" := strMk_ne_empty _ (by simp)
  unfold pjoin
  rw [if_neg ha, if_neg hb]
  unfold pnormalize
  apply String.ext
  show normalizeL (((⟨'/' :: interSl rsegs⟩ : String) ++ "/" ++
    (⟨interSl psegs⟩ : String)).data) = _
  rw [strData_append, strData_append]
  show normalizeL ('/' :: interSl rsegs ++ ['/'] ++ interSl psegs) = _
  rw [List.append_assoc]
  exact pnormalize_clean_abs rsegs psegs hr hp hpne

theorem head?_of_plain_interSl (psegs : List (List Char)) (hp : plainSegs psegs)
    (hne : psegs ≠ []) :
    ∃ c t, interSl psegs = c :: t ∧ c ≠ '/' := by
  cases psegs with
  | nil => exact absurd rfl hne
  | cons s rest =>
    obtain ⟨h1, h2, _, _⟩ := hp s (by simp)
    cases s with
    | nil => exact absurd rfl h1
    | cons c cs =>
      refine ⟨c, cs ++ (if rest = [] then [] else '/' :: interSl rest), ?_, ?_⟩
      · rw [interSl_cons]; simp
      · exact fun hc => h2 (hc ▸ List.mem_cons_self c cs)

theorem isAbsolute_of_head (l : List Char) (c : Char) (t : List Char)
    (hl : l = c :: t) (hc : c ≠ '/') : isAbsolute ⟨l⟩ = false := by
  subst hl
  unfold isAbsolute jsStartsWith
  show List.isPrefixOf ['/'] (c :: t) = false
  simp [List.isPrefixOf]
  intro h
  exact absurd h.symm hc

theorem takeWhile_block (p : Char → Bool) (l1 : List Char) (a : Char)
    (l2 : List Char) (h1 : ∀ c ∈ l1, p c = true) (h2 : p a = false) :
    List.takeWhile p (l1 ++ a :: l2) = l1 := by
  induction l1 with
  | nil => simp [List.takeWhile_cons, h2]
  | cons c cs ih =>
    rw [List.cons_append, List.takeWhile_cons,
      ih (fun u hu => h1 u (List.mem_cons_of_mem c hu)), h1 c (by simp)]
    simp

theorem takeWhile_all (p : Char → Bool) (l : List Char)
    (h : ∀ c ∈ l, p c = true) : List.takeWhile p l = l := by
  induction l with
  | nil => simp
  | cons c cs ih =>
    rw [List.takeWhile_cons, ih (fun u hu => h u (List.mem_cons_of_mem c hu)),
      h c (by simp)]
    simp

theorem baseRun_append (x : List Char) (pl : List Char)
    (h1 : pl ≠ []) (h2 : '/' ∉ pl) : baseRun (x ++ '/' :: pl) = pl := by
  unfold baseRun
  have hrev : (x ++ '/' :: pl).reverse = pl.reverse ++ '/' :: x.reverse := by
    rw [List.reverse_append, List.reverse_cons, List.append_assoc,
      List.singleton_append]
  rw [hrev]
  obtain ⟨c, cs, hcs⟩ : ∃ c cs, pl.reverse = c :: cs := by
    cases hr : pl.reverse with
    | nil => exact absurd (by simpa using congrArg List.reverse hr) h1
    | cons c cs => exact ⟨c, cs, rfl⟩
  have hmem : ∀ u ∈ pl.reverse, u ≠ '/' := fun u hu =>
    fun he => h2 (he ▸ List.mem_reverse.mp hu)
  have hc : c ≠ '/' := hmem c (by rw [hcs]; simp)
  rw [hcs, List.cons_append, List.dropWhile_cons, if_neg (by simp [hc])]
  have htw : List.takeWhile (fun u => decide (u ≠ '/'))
      ((c :: cs) ++ '/' :: x.reverse) = c :: cs := by
    apply takeWhile_block
    · intro u hu
      simp [hmem u (hcs ▸ hu)]
    · simp
  rw [List.cons_append] at htw
  rw [htw, ← hcs, List.reverse_reverse]

theorem baseRun_no_slash (pl : List Char) (h1 : pl ≠ []) (h2 : '/' ∉ pl) :
    baseRun pl = pl := by
  unfold baseRun
  obtain ⟨c, cs, hcs⟩ : ∃ c cs, pl.reverse = c :: cs := by
    cases hr : pl.reverse with
    | nil => exact absurd (by simpa using congrArg List.reverse hr) h1
    | cons c cs => exact ⟨c, cs, rfl⟩
  have hmem : ∀ u ∈ pl.reverse, u ≠ '/' := fun u hu =>
    fun he => h2 (he ▸ List.mem_reverse.mp hu)
  have hc : c ≠ '/' := hmem c (by rw [hcs]; simp)
  rw [hcs, List.dropWhile_cons, if_neg (by simp [hc]), ← hcs,
    takeWhile_all _ _ (fun u hu => by simp [hmem u hu]), List.reverse_reverse]

theorem extOfBase_md (b : List Char) (h : b ≠ []) :
    extOfBase (b ++ ['.', 'm', 'd']) = ['.', 'm', 'd'] := by
  unfold extOfBase
  have hb1 : 0 < b.length := List.length_pos.mpr h
  have hrev : (b ++ ['.', 'm', 'd']).reverse = 'd' :: 'm' :: '.' :: b.reverse := by
    rw [List.reverse_append]
    rfl
  rw [hrev]
  have htw : List.takeWhile (fun c => decide (c ≠ '.'))
      ('d' :: 'm' :: '.' :: b.reverse) = ['d', 'm'] := by
    rw [List.takeWhile_cons, List.takeWhile_cons, List.takeWhile_cons]
    simp
  rw [htw]
  have hlen : (b ++ ['.', 'm', 'd']).length = b.length + 3 := by simp
  rw [hlen]
  have c1 : ¬(['d', 'm'].length = b.length + 3) := by
    show ¬(2 = b.length + 3)
    omega
  have c2 : ¬(b.length + 3 - ['d', 'm'].length - 1 = 0) := by
    show ¬(b.length + 3 - 2 - 1 = 0)
    omega
  have c3 : ¬(b ++ ['.', 'm', 'd'] = ['.', '.']) := by
    intro he
    have hl := congrArg List.length he
    simp at hl
  rw [if_neg c1, if_neg c2, if_neg c3]
  rfl

theorem dropWhile_head_false (p : Char → Bool) (l : List Char) (a : Char)
    (rest : List Char) (h : List.dropWhile p l = a :: rest) : p a = false := by
  induction l with
  | nil => simp [List.dropWhile] at h
  | cons c cs ih =>
    rw [List.dropWhile_cons] at h
    by_cases hc : p c = true
    · rw [if_pos hc] at h
      exact ih h
    · rw [if_neg hc] at h
      cases h
      exact eq_false_of_ne_true hc

theorem extOfBase_suffix (b : List Char) (h : extOfBase b ≠ []) :
    extOfBase b <:+ b := by
  unfold extOfBase at *
  set revAfter := b.reverse.takeWhile (fun c => decide (c ≠ '.')) with hra
  by_cases h1 : revAfter.length = b.length
  · rw [if_pos h1] at h
    exact absurd rfl h
  rw [if_neg h1] at h ⊢
  by_cases h2 : b.length - revAfter.length - 1 = 0
  · rw [if_pos h2] at h
    exact absurd rfl h
  rw [if_neg h2] at h ⊢
  by_cases h3 : b = ['.', '.']
  · rw [if_pos h3] at h
    exact absurd rfl h
  rw [if_neg h3]
  have hsplit : revAfter ++ b.reverse.dropWhile (fun c => decide (c ≠ '.')) =
      b.reverse := List.takeWhile_append_dropWhile _ _
  obtain ⟨a, rest, hdw⟩ : ∃ a rest,
      b.reverse.dropWhile (fun c => decide (c ≠ '.')) = a :: rest := by
    cases hd : b.reverse.dropWhile (fun c => decide (c ≠ '.')) with
    | nil =>
      exfalso
      rw [hd, List.append_nil] at hsplit
      have : revAfter.length = b.length := by
        rw [hsplit]
        simp
      exact h1 this
    | cons a rest => exact ⟨a, rest, rfl⟩
  have ha : a = '.' := by
    have := dropWhile_head_false _ _ _ _ hdw
    simpa using this
  subst ha
  rw [hdw] at hsplit
  refine ⟨rest.reverse, ?_⟩
  have : b = (revAfter ++ '.' :: rest).reverse := by
    rw [hsplit, List.reverse_reverse]
  rw [this, List.reverse_append, List.reverse_cons, List.append_assoc,
    List.singleton_append]

theorem validatePath_ok_elim (root p v : String) (h : validatePath root p = .ok v) :
    jsStartsWith (vfull root p) root = true ∧
      ((extname (vfull root p) = ".md" ∧ v = vfull root p) ∨
        (extname (vfull root p) ≠ ".md" ∧ v = vfull root p ++ ".md")) := by
  unfold validatePath at h
  by_cases hg : jsStartsWith (vfull root p) root = true
  · rw [if_pos hg] at h
    refine ⟨hg, ?_⟩
    injection h with h2
    by_cases he : extname (vfull root p) = ".md"
    · rw [if_pos he] at h2
      exact Or.inl ⟨he, h2.symm⟩
    · rw [if_neg he] at h2
      exact Or.inr ⟨he, h2.symm⟩
  · rw [if_neg hg] at h
    exact absurd h (by simp)

theorem jsStartsWith_append_right (s pre t : String)
    (h : jsStartsWith s pre = true) : jsStartsWith (s ++ t) pre = true := by
  rw [jsStartsWith_iff] at h ⊢
  rw [strData_append]
  exact h.trans (List.prefix_append _ _)

theorem validatePath_keeps_root (root p v : String)
    (h : validatePath root p = .ok v) : jsStartsWith v root = true := by
  obtain ⟨hg, hcase⟩ := validatePath_ok_elim root p v h
  rcases hcase with ⟨_, rfl⟩ | ⟨_, rfl⟩
  · exact hg
  · exact jsStartsWith_append_right _ _ _ hg

theorem validatePath_absolute (root p v : String)
    (hroot : jsStartsWith root "/" = true)
    (h : validatePath root p = .ok v) : jsStartsWith v "/" = true := by
  have h1 := validatePath_keeps_root root p v h
  rw [jsStartsWith_iff] at h1 hroot ⊢
  exact hroot.trans h1

theorem extnameL_empty : extnameL [] = [] := rfl

theorem validatePath_md_or_sep (root p v : String)
    (h : validatePath root p = .ok v) :
    jsEndsWith v ".md" = true ∨ jsEndsWith v "/" = true := by
  obtain ⟨hg, hcase⟩ := validatePath_ok_elim root p v h
  rcases hcase with ⟨he, rfl⟩ | ⟨he, rfl⟩
  · by_cases hs : jsEndsWith (vfull root p) "/" = true
    · exact Or.inr hs
    left
    have hfd : extnameL (vfull root p).data = ['.', 'm', 'd'] := by
      have := congrArg String.data he
      exact this
    have hfne : (vfull root p).data ≠ [] := by
      intro h0
      rw [h0, extnameL_empty] at hfd
      simp at hfd
    obtain ⟨c, init, hlast⟩ : ∃ c init, (vfull root p).data = init ++ [c] :=
      ⟨(vfull root p).data.getLast hfne, (vfull root p).data.dropLast,
        (List.dropLast_append_getLast hfne).symm⟩
    have hc : c ≠ '/' := by
      intro hcEq
      subst hcEq
      apply hs
      rw [jsEndsWith_iff]
      exact ⟨init, hlast.symm⟩
    have hrevEq : (vfull root p).data.reverse = c :: init.reverse := by
      rw [hlast]
      simp
    have hdw : (vfull root p).data.reverse.dropWhile (fun u => decide (u = '/')) =
        (vfull root p).data.reverse := by
      rw [hrevEq, List.dropWhile_cons, if_neg (by simp [hc])]
    have hbrs : baseRun (vfull root p).data <:+ (vfull root p).data := by
      unfold baseRun
      rw [hdw]
      apply List.reverse_prefix.mp
      rw [List.reverse_reverse]
      exact List.takeWhile_prefix _
    have hes : extnameL (vfull root p).data <:+ baseRun (vfull root p).data := by
      apply extOfBase_suffix
      show extnameL (vfull root p).data ≠ []
      rw [hfd]
      simp
    rw [jsEndsWith_iff]
    show (String.data ".md") <:+ (vfull root p).data
    have hmd : (String.data ".md") = extnameL (vfull root p).data := by
      rw [hfd]
    rw [hmd]
    exact hes.trans hbrs
  · left
    exact jsEndsWith_of_data _ _ (vfull root p).data rfl

theorem fsLookup_cons (k : String) (st : FileState)
    (rest : List (String × FileState)) (q : String) :
    fsLookup ((k, st) :: rest) q = if k = q then some st else fsLookup rest q := rfl

theorem fsLookup_filter_ne (files : List (String × FileState)) (p q : String)
    (h : q ≠ p) :
    fsLookup (files.filter (fun e => e.1 ≠ p)) q = fsLookup files q := by
  induction files with
  | nil => rfl
  | cons e rest ih =>
    obtain ⟨k, st⟩ := e
    rw [List.filter_cons]
    by_cases he : k = p
    · rw [if_neg (by simp [he]), ih, fsLookup_cons,
        if_neg (fun hq : k = q => h (hq ▸ he ▸ rfl))]
    · rw [if_pos (by simp [he]), fsLookup_cons, fsLookup_cons]
      by_cases hq : k = q
      · rw [if_pos hq, if_pos hq]
      · rw [if_neg hq, if_neg hq, ih]

theorem fsLookup_fsWrite_ne (files : List (String × FileState)) (v x q : String)
    (h : q ≠ v) : fsLookup (fsWrite files v x) q = fsLookup files q := by
  unfold fsWrite
  rw [fsLookup_cons, if_neg (fun hq : v = q => h hq.symm)]
  exact fsLookup_filter_ne files v q h

theorem writeNoteOp_eq_plain (w : World) (root p c : String) (v : String)
    (hv : validatePath root p = .ok v) :
    writeNoteOp w root p c false = .ok
      ({ w with files := fsWrite w.files v c },
        [⟨"Successfully wrote note: " ++ relative root v⟩]) := by
  unfold writeNoteOp
  rw [hv]
  rfl

theorem writeNoteOp_eq_append_ok (w : World) (root p c : String) (v e0 : String)
    (hv : validatePath root p = .ok v)
    (hr : fsReadFile w.files v = .ok e0) :
    writeNoteOp w root p c true = .ok
      ({ w with files := fsWrite w.files v (e0 ++ "\\n\\n" ++ c) },
        [⟨"Successfully appended to note: " ++ relative root v⟩]) := by
  unfold writeNoteOp
  rw [hv]
  show Except.ok _ = _
  rw [hr]
  rfl

theorem writeNoteOp_eq_append_err (w : World) (root p c : String) (v e : String)
    (hv : validatePath root p = .ok v)
    (hr : fsReadFile w.files v = .error e) :
    writeNoteOp w root p c true = .ok
      ({ w with files := fsWrite w.files v c },
        [⟨"Successfully appended to note: " ++ relative root v⟩]) := by
  unfold writeNoteOp
  rw [hv]
  show Except.ok _ = _
  rw [hr]
  rfl

theorem writeNoteOp_eq_err (w : World) (root p c : String) (ap : Bool) (e : String)
    (hv : validatePath root p = .error e) :
    writeNoteOp w root p c ap = .error e := by
  unfold writeNoteOp
  rw [hv]
  rfl

theorem deleteNoteOp_eq (w : World) (root p v : String)
    (hv : validatePath root p = .ok v) :
    deleteNoteOp w root p =
      (match fsUnlink w.files v with
       | .ok files2 => .ok ({ w with files := files2 },
           [⟨"Successfully deleted note: " ++ relative root v⟩])
       | .error e => .error ("Failed to delete note: " ++ e)) := by
  unfold deleteNoteOp
  rw [hv]
  rfl

theorem deleteNoteOp_eq_err (w : World) (root p e : String)
    (hv : validatePath root p = .error e) : deleteNoteOp w root p = .error e := by
  unfold deleteNoteOp
  rw [hv]
  rfl

theorem writeNoteOp_touches (w : World) (root p c : String) (ap : Bool)
    (out : World × List Block) (h : writeNoteOp w root p c ap = .ok out) :
    ∀ q, fsLookup out.1.files q ≠ fsLookup w.files q →
      jsEndsWith q ".md" = true ∨ jsEndsWith q "/" = true := by
  intro q hq
  cases hv : validatePath root p with
  | error e =>
    rw [writeNoteOp_eq_err w root p c ap e hv] at h
    exact absurd h (by simp)
  | ok v =>
    by_cases hqv : q = v
    · subst hqv
      exact validatePath_md_or_sep root p q hv
    exfalso
    apply hq
    have hfiles : ∃ x, out.1.files = fsWrite w.files v x := by
      cases ap with
      | false =>
        rw [writeNoteOp_eq_plain w root p c v hv] at h
        injection h with h2
        exact ⟨c, by rw [← h2]⟩
      | true =>
        cases hr : fsReadFile w.files v with
        | ok e0 =>
          rw [writeNoteOp_eq_append_ok w root p c v e0 hv hr] at h
          injection h with h2
          exact ⟨e0 ++ "\\n\\n" ++ c, by rw [← h2]⟩
        | error e =>
          rw [writeNoteOp_eq_append_err w root p c v e hv hr] at h
          injection h with h2
          exact ⟨c, by rw [← h2]⟩
    obtain ⟨x, hx⟩ := hfiles
    rw [hx]
    exact fsLookup_fsWrite_ne w.files v x q hqv

theorem deleteNoteOp_touches (w : World) (root p : String)
    (out : World × List Block) (h : deleteNoteOp w root p = .ok out) :
    ∀ q, fsLookup out.1.files q ≠ fsLookup w.files q →
      jsEndsWith q ".md" = true ∨ jsEndsWith q "/" = true := by
  intro q hq
  cases hv : validatePath root p with
  | error e =>
    rw [deleteNoteOp_eq_err w root p e hv] at h
    exact absurd h (by simp)
  | ok v =>
    by_cases hqv : q = v
    · subst hqv
      exact validatePath_md_or_sep root p q hv
    exfalso
    apply hq
    rw [deleteNoteOp_eq w root p v hv] at h
    cases hu : fsUnlink w.files v with
    | error e =>
      rw [hu] at h
      exact absurd h (by simp)
    | ok files2 =>
      rw [hu] at h
      injection h with h2
      have hf2 : files2 = w.files.filter (fun e => e.1 ≠ v) := by
        unfold fsUnlink at hu
        cases hl : fsLookup w.files v with
        | none =>
          rw [hl] at hu
          exact absurd hu (by simp)
        | some st =>
          rw [hl] at hu
          injection hu with hu2
          exact hu2.symm
      rw [← h2]
      show fsLookup files2 q = _
      rw [hf2]
      exact fsLookup_filter_ne w.files v q hqv

theorem readNoteItem_shadow (files : List (String × FileState))
    (root p q : String) (st : FileState)
    (h1 : jsEndsWith q ".md" = false) (h2 : jsEndsWith q "/" = false) :
    readNoteItem ((q, st) :: files) root p = readNoteItem files root p := by
  unfold readNoteItem
  cases hv : validatePath root p with
  | error e => rfl
  | ok v =>
    have hvq : q ≠ v := by
      intro he
      rcases validatePath_md_or_sep root p v hv with hm | hm
      · rw [← he] at hm
        rw [h1] at hm
        simp at hm
      · rw [← he] at hm
        rw [h2] at hm
        simp at hm
    have hre : fsReadFile ((q, st) :: files) v = fsReadFile files v := by
      unfold fsReadFile
      rw [fsLookup_cons, if_neg hvq]
    show (match fsReadFile ((q, st) :: files) v with
      | Except.error e => "Error reading note " ++ p ++ ": " ++ e
      | Except.ok content =>
        "# " ++ relative root v ++ "\\n\\n" ++ content ++ "\\n") =
      (match fsReadFile files v with
      | Except.error e => "Error reading note " ++ p ++ ": " ++ e
      | Except.ok content =>
        "# " ++ relative root v ++ "\\n\\n" ++ content ++ "\\n")
    rw [hre]

/-- C1 counterexample: the guard is a raw string-prefix test, so the
absolute input `/vaultEvil/x` passes against root `/vault` although it
does not lie inside the vault directory; `../../etc/passwd` is accepted
against root `/e`; and against the root `/v.md` the empty input resolves
to the root itself, so the prefix is not strict. -/
theorem claim_c1_counterexample :
    validatePath "/vault" "/vaultEvil/x" = .ok "/vaultEvil/x.md" ∧
    insideDir "/vault" "/vaultEvil/x.md" = false ∧
    validatePath "/e" "../../etc/passwd" = .ok "/etc/passwd.md" ∧
    validatePath "/v.md" "" = .ok "/v.md" := by decide

/-- C1 amended: for every root and input, `validatePath` either returns
a path that has the root as a string prefix (not necessarily a strict
one, and not necessarily inside the root directory) — hence absolute
whenever the root is — or fails with the access-denied error; resolving
`../../etc/passwd` fails against root `/vault` (though not against every
root). -/
theorem claim_c1_sandbox_amended :
    (∀ root p v, validatePath root p = .ok v → jsStartsWith v root = true) ∧
    (∀ root p v, jsStartsWith root "/" = true → validatePath root p = .ok v →
      jsStartsWith v "/" = true) ∧
    validatePath "/vault" "../../etc/passwd" =
      .error "Access denied - path outside Obsidian vault: /etc/passwd" :=
  ⟨validatePath_keeps_root, validatePath_absolute, by decide⟩

/-- C1 witness: the amended theorem applied to root `/vault` and input
`notes/a`. -/
theorem claim_c1_witness :
    jsStartsWith "/vault/notes/a.md" "/vault" = true ∧
    jsStartsWith "/vault/notes/a.md" "/" = true :=
  ⟨claim_c1_sandbox_amended.1 "/vault" "notes/a" "/vault/notes/a.md" (by decide),
    claim_c1_sandbox_amended.2.1 "/vault" "notes/a" "/vault/notes/a.md"
      (by decide) (by decide)⟩

/-- C9 counterexample: a trailing-slash input whose base name carries the
`.md` extension survives `validatePath` unchanged, so the returned path
ends in `/`, not in `.md`. -/
theorem claim_c9_counterexample :
    validatePath "/vault" "a.md/" = .ok "/vault/a.md/" ∧
    jsEndsWith "/vault/a.md/" ".md" = false := by decide

/-- C9 amended: every path returned by `validatePath` ends in `.md` or in
the separator `/` (the latter only for trailing-slash inputs); the
`write_note` and `delete_note` handlers change the file map only at such
paths; and `read_notes` reads only at such paths — a file stored at a
path ending in neither is invisible to every `read_notes` item — so a
vault file whose path ends in neither `.md` nor `/` can never be read,
overwritten, or deleted through these tools. -/
theorem claim_c9_md_suffix_amended :
    (∀ root p v, validatePath root p = .ok v →
      jsEndsWith v ".md" = true ∨ jsEndsWith v "/" = true) ∧
    (∀ w root p c ap out, writeNoteOp w root p c ap = .ok out →
      ∀ q, fsLookup out.1.files q ≠ fsLookup w.files q →
        jsEndsWith q ".md" = true ∨ jsEndsWith q "/" = true) ∧
    (∀ w root p out, deleteNoteOp w root p = .ok out →
      ∀ q, fsLookup out.1.files q ≠ fsLookup w.files q →
        jsEndsWith q ".md" = true ∨ jsEndsWith q "/" = true) ∧
    (∀ files root p q st, jsEndsWith q ".md" = false → jsEndsWith q "/" = false →
      readNoteItem ((q, st) :: files) root p = readNoteItem files root p) :=
  ⟨validatePath_md_or_sep, writeNoteOp_touches, deleteNoteOp_touches,
    readNoteItem_shadow⟩

/-- C9 witness: the amended theorem applied to root `/vault` and input
`n`, and to a read of `n` with a shadowing non-markdown entry
`/vault/secret.txt` on the disk. -/
theorem claim_c9_witness :
    (jsEndsWith "/vault/n.md" ".md" = true ∨
      jsEndsWith "/vault/n.md" "/" = true) ∧
    readNoteItem [("/vault/secret.txt", FileState.readable "hidden")]
        "/vault" "n" =
      readNoteItem [] "/vault" "n" :=
  ⟨claim_c9_md_suffix_amended.1 "/vault" "n" "/vault/n.md" (by decide),
    claim_c9_md_suffix_amended.2.2.2 [] "/vault" "n" "/vault/secret.txt"
      (FileState.readable "hidden") (by decide) (by decide)⟩

/-- C10: when `append` is true and reading the existing file fails for
any reason — missing file or an unreadable one — the handler writes just
the new content and reports success, never surfacing the read failure. -/
theorem claim_c10_append_read_failure :
    ∀ (w : World) (root p c v e : String),
      validatePath root p = .ok v → fsReadFile w.files v = .error e →
      writeNoteOp w root p c true = .ok
        ({ w with files := fsWrite w.files v c },
          [⟨"Successfully appended to note: " ++ relative root v⟩]) :=
  fun w root p c v e hv hr => writeNoteOp_eq_append_err w root p c v e hv hr

/-- C10 witness: the theorem applied to a file that exists but fails to
read with a permission error. -/
theorem claim_c10_witness :
    writeNoteOp ⟨[("/v/a.md", FileState.unreadable "EACCES: permission denied")], []⟩
        "/v" "a" "B" true = .ok
      ({ files := fsWrite [("/v/a.md", FileState.unreadable "EACCES: permission denied")]
            "/v/a.md" "B", tree := [] },
        [⟨"Successfully appended to note: " ++ relative "/v" "/v/a.md"⟩]) :=
  claim_c10_append_read_failure
    ⟨[("/v/a.md", FileState.unreadable "EACCES: permission denied")], []⟩
    "/v" "a" "B" "/v/a.md" "EACCES: permission denied" (by decide) (by decide)

/-- C6: writing `A` and then appending `B` yields the file content
`A\\n\\nB` with the four literal characters backslash-n backslash-n as
separator — the source writes the string literal `'\\n\\n'` — which is
not a blank line (`A\n\nB`); appending to a missing path creates it with
just `B`. -/
theorem claim_c6_separator_evaluation :
    fsLookup ((callTool trivialEngine "/v"
        (callTool trivialEngine "/v" emptyWorld
          ⟨"write_note", .writeNote "n" "A" false⟩).1
        ⟨"write_note", .writeNote "n" "B" true⟩).1.files) "/v/n.md" =
      some (.readable "A\\n\\nB") ∧
    "A\\n\\nB" ≠ "A\n\nB" ∧
    fsLookup ((callTool trivialEngine "/v" emptyWorld
        ⟨"write_note", .writeNote "m" "B" true⟩).1.files) "/v/m.md" =
      some (.readable "B") := by decide

/-- C3: once the arguments parse, `read_notes` never reports `isError`:
each item is rendered independently — a guard rejection or read failure
becomes that item's inline `Error reading note …` string, a success its
content block — and the response is the join of all items. -/
theorem claim_c3_batch_isolation :
    ∀ (E : RegexEngine) (root : String) (w : World) (ps : List String),
      (callTool E root w ⟨"read_notes", .readNotes ps⟩).2.isError = false ∧
      (callTool E root w ⟨"read_notes", .readNotes ps⟩).2.content =
        [⟨jsJoin "\\n---\\n" (ps.map (readNoteItem w.files root))⟩] ∧
      (∀ p v e, validatePath root p = .ok v → fsReadFile w.files v = .error e →
        readNoteItem w.files root p = "Error reading note " ++ p ++ ": " ++ e) ∧
      (∀ p v c, validatePath root p = .ok v → fsReadFile w.files v = .ok c →
        readNoteItem w.files root p =
          "# " ++ relative root v ++ "\\n\\n" ++ c ++ "\\n") ∧
      (∀ p e, validatePath root p = .error e →
        readNoteItem w.files root p = "Error reading note " ++ p ++ ": " ++ e) := by
  intro E root w ps
  refine ⟨rfl, rfl, ?_, ?_, ?_⟩
  · intro p v e hv hr
    unfold readNoteItem
    rw [hv]
    show (match fsReadFile w.files v with
      | Except.error e => "Error reading note " ++ p ++ ": " ++ e
      | Except.ok content =>
        "# " ++ relative root v ++ "\\n\\n" ++ content ++ "\\n") = _
    rw [hr]
  · intro p v c hv hr
    unfold readNoteItem
    rw [hv]
    show (match fsReadFile w.files v with
      | Except.error e => "Error reading note " ++ p ++ ": " ++ e
      | Except.ok content =>
        "# " ++ relative root v ++ "\\n\\n" ++ content ++ "\\n") = _
    rw [hr]
  · intro p e hv
    unfold readNoteItem
    rw [hv]

/-- C3 witness: the theorem applied to a disk holding `exists.md` and the
batch `["exists", "missing"]`. -/
theorem claim_c3_witness :
    (callTool trivialEngine "/v" ⟨[("/v/exists.md", FileState.readable "hello")], []⟩
        ⟨"read_notes", .readNotes ["exists", "missing"]⟩).2.isError = false ∧
    readNoteItem [("/v/exists.md", FileState.readable "hello")] "/v" "missing" =
      "Error reading note " ++ "missing" ++ ": " ++
        "ENOENT: no such file or directory, open /v/missing.md" ∧
    readNoteItem [("/v/exists.md", FileState.readable "hello")] "/v" "exists" =
      "# " ++ relative "/v" "/v/exists.md" ++ "\\n\\n" ++ "hello" ++ "\\n" :=
  ⟨(claim_c3_batch_isolation trivialEngine "/v"
      ⟨[("/v/exists.md", FileState.readable "hello")], []⟩ ["exists", "missing"]).1,
    (claim_c3_batch_isolation trivialEngine "/v"
      ⟨[("/v/exists.md", FileState.readable "hello")], []⟩ ["exists", "missing"]).2.2.1
      "missing" "/v/missing.md" "ENOENT: no such file or directory, open /v/missing.md"
      (by decide) (by decide),
    (claim_c3_batch_isolation trivialEngine "/v"
      ⟨[("/v/exists.md", FileState.readable "hello")], []⟩ ["exists", "missing"]).2.2.2.1
      "exists" "/v/exists.md" "hello" (by decide) (by decide)⟩

/-- C4 counterexample: a two-path batch produces one content block, not
two. -/
theorem claim_c4_counterexample :
    (callTool trivialEngine "/v" ⟨[("/v/a.md", FileState.readable "x")], []⟩
        ⟨"read_notes", .readNotes ["a", "b"]⟩).2.content.length = 1 ∧
    (["a", "b"] : List String).length = 2 := by decide

/-- C4 amended: for n input paths the response holds exactly one text
block, whose text is the n per-item results — one per input path, in
input order — joined with the source's literal `\\n---\\n` separator. -/
theorem claim_c4_single_block_amended :
    ∀ (E : RegexEngine) (root : String) (w : World) (ps : List String),
      (callTool E root w ⟨"read_notes", .readNotes ps⟩).2.content.length = 1 ∧
      (callTool E root w ⟨"read_notes", .readNotes ps⟩).2.content =
        [⟨jsJoin "\\n---\\n" (ps.map (readNoteItem w.files root))⟩] ∧
      (ps.map (readNoteItem w.files root)).length = ps.length :=
  fun E root w ps => ⟨rfl, rfl, by simp⟩

/-- C5: the dispatcher produces exactly one response per request (it is a
total function in this model); whenever that response carries
`isError: true` its single block's text begins with `Error:`, and an
unregistered tool name yields the error response whose text contains
`Unknown tool: <name>`. -/
theorem claim_c5_dispatcher_boundary :
    (∀ E root w req, (callTool E root w req).2.isError = true →
      ∃ m, (callTool E root w req).2.content = [⟨"Error: " ++ m⟩] ∧
        jsStartsWith ("Error: " ++ m) "Error:" = true) ∧
    (∀ E root w name args, name ∉ knownTools →
      (callTool E root w ⟨name, args⟩).2 =
        ⟨[⟨"Error: " ++ ("Unknown tool: " ++ name)⟩], true⟩ ∧
      jsIncludes ("Error: " ++ ("Unknown tool: " ++ name))
        ("Unknown tool: " ++ name) = true) := by
  constructor
  · intro E root w req hiserr
    unfold callTool at hiserr ⊢
    cases hd : dispatch E root w req with
    | ok x =>
      rw [hd] at hiserr
      obtain ⟨w2, blocks⟩ := x
      simp at hiserr
    | error m =>
      refine ⟨m, rfl, ?_⟩
      apply jsStartsWith_of_data _ _ (' ' :: m.data)
      rw [strData_append]
      rfl
  · intro E root w name args hname
    have h1 : ¬(name = "write_note") := fun h => hname (by rw [h]; simp [knownTools])
    have h2 : ¬(name = "delete_note") := fun h => hname (by rw [h]; simp [knownTools])
    have h3 : ¬(name = "read_notes") := fun h => hname (by rw [h]; simp [knownTools])
    have h4 : ¬(name = "search_notes") := fun h => hname (by rw [h]; simp [knownTools])
    have hdis : dispatch E root w ⟨name, args⟩ =
        .error ("Unknown tool: " ++ name) := by
      unfold dispatch
      rw [if_neg h1, if_neg h2, if_neg h3, if_neg h4]
      rfl
    constructor
    · unfold callTool
      rw [hdis]
    · unfold jsIncludes
      apply decide_eq_true
      refine ⟨"Error: ".data, [], ?_⟩
      rw [List.append_nil, ← strData_append]

/-- C5 witness: the theorem applied to the unregistered name `bogus`. -/
theorem claim_c5_witness :
    (callTool trivialEngine "/v" emptyWorld ⟨"bogus", .malformed⟩).2 =
      ⟨[⟨"Error: " ++ ("Unknown tool: " ++ "bogus")⟩], true⟩ ∧
    jsIncludes ("Error: " ++ ("Unknown tool: " ++ "bogus"))
      ("Unknown tool: " ++ "bogus") = true ∧
    (∃ m, (callTool trivialEngine "/v" emptyWorld ⟨"bogus", .malformed⟩).2.content =
      [⟨"Error: " ++ m⟩] ∧ jsStartsWith ("Error: " ++ m) "Error:" = true) :=
  ⟨(claim_c5_dispatcher_boundary.2 trivialEngine "/v" emptyWorld "bogus"
      .malformed (by decide)).1,
    (claim_c5_dispatcher_boundary.2 trivialEngine "/v" emptyWorld "bogus"
      .malformed (by decide)).2,
    claim_c5_dispatcher_boundary.1 trivialEngine "/v" emptyWorld
      ⟨"bogus", .malformed⟩ (by decide)⟩

theorem rawRegexSplit_generic (a2 fl : List Char)
    (hfl : ∀ c ∈ fl, isRegexFlag c = true) :
    rawRegexSplit ('/' :: (a2 ++ '/' :: fl)) = some (a2, fl) := by
  show (if ('/' : Char) = '/' then
      match List.drop
          (List.takeWhile isRegexFlag (a2 ++ '/' :: fl).reverse).length
          (a2 ++ '/' :: fl).reverse with
      | d :: rem =>
        if d = '/' then
          some (rem.reverse, (List.takeWhile isRegexFlag (a2 ++ '/' :: fl).reverse).reverse)
        else none
      | [] => none
    else none) = some (a2, fl)
  rw [if_pos rfl]
  have hrev : (a2 ++ '/' :: fl).reverse = fl.reverse ++ '/' :: a2.reverse := by
    rw [List.reverse_append, List.reverse_cons, List.append_assoc,
      List.singleton_append]
  rw [hrev]
  have htw : List.takeWhile isRegexFlag (fl.reverse ++ '/' :: a2.reverse) =
      fl.reverse := by
    apply takeWhile_block
    · intro c hc
      exact hfl c (List.mem_reverse.mp hc)
    · rfl
  rw [htw]
  have hdrop : (fl.reverse ++ '/' :: a2.reverse).drop fl.reverse.length =
      '/' :: a2.reverse := List.drop_left _ _
  rw [hdrop]
  show (if ('/' : Char) = '/' then
      some (a2.reverse.reverse, fl.reverse.reverse) else none) = some (a2, fl)
  rw [if_pos rfl, List.reverse_reverse, List.reverse_reverse]

theorem not_in_five (q : String) (a2 sd : List Char)
    (hq : q.data = '/' :: (a2 ++ sd)) (hs : '/' ∈ sd) :
    q ∉ (["/", "/i", "/g", "/gi", "/ig"] : List String) := by
  intro hmem
  have hsl : '/' ∈ a2 ++ sd := List.mem_append.mpr (Or.inr hs)
  have hcases : q = "/" ∨ q = "/i" ∨ q = "/g" ∨ q = "/gi" ∨ q = "/ig" := by
    simpa using hmem
  rcases hcases with rfl | rfl | rfl | rfl | rfl
  · have h2 : ('/' : Char) :: (a2 ++ sd) = ['/'] := hq.symm
    have h3 : a2 ++ sd = [] := by simpa using h2
    rw [h3] at hsl
    simp at hsl
  · have h2 : ('/' : Char) :: (a2 ++ sd) = ['/', 'i'] := hq.symm
    have h3 : a2 ++ sd = ['i'] := by simpa using h2
    rw [h3] at hsl
    simp at hsl
  · have h2 : ('/' : Char) :: (a2 ++ sd) = ['/', 'g'] := hq.symm
    have h3 : a2 ++ sd = ['g'] := by simpa using h2
    rw [h3] at hsl
    simp at hsl
  · have h2 : ('/' : Char) :: (a2 ++ sd) = ['/', 'g', 'i'] := hq.symm
    have h3 : a2 ++ sd = ['g', 'i'] := by simpa using h2
    rw [h3] at hsl
    simp at hsl
  · have h2 : ('/' : Char) :: (a2 ++ sd) = ['/', 'i', 'g'] := hq.symm
    have h3 : a2 ++ sd = ['i', 'g'] := by simpa using h2
    rw [h3] at hsl
    simp at hsl

theorem codeIsRegex_extract (q : String) (hq : codeIsRegex q = true) :
    (rawRegexSplit q.data).isSome = true ↔
      q ∉ (["/", "/i", "/g", "/gi", "/ig"] : List String) := by
  unfold codeIsRegex at hq
  rw [Bool.and_eq_true] at hq
  obtain ⟨hstart, hends⟩ := hq
  rw [jsStartsWith_iff] at hstart
  obtain ⟨rest, hrest⟩ : ∃ rest, q.data = '/' :: rest := by
    obtain ⟨t, ht⟩ := hstart
    exact ⟨t, by rw [← ht]; rfl⟩
  simp only [Bool.or_eq_true] at hends
  have hmain : ∀ (fl : List Char),
      (fl = [] ∨ fl = ['i'] ∨ fl = ['g'] ∨ fl = ['g', 'i'] ∨ fl = ['i', 'g']) →
      jsEndsWith q ⟨'/' :: fl⟩ = true →
      ((rawRegexSplit q.data).isSome = true ↔
        q ∉ (["/", "/i", "/g", "/gi", "/ig"] : List String)) := by
    intro fl hfl5 hend
    have hfl : ∀ c ∈ fl, isRegexFlag c = true := by
      rcases hfl5 with rfl | rfl | rfl | rfl | rfl <;> decide
    rw [jsEndsWith_iff] at hend
    obtain ⟨a, ha⟩ := hend
    have ha' : q.data = a ++ '/' :: fl := ha.symm
    cases a with
    | nil =>
      have hqe : q = ⟨'/' :: fl⟩ := String.ext (by rw [ha']; rfl)
      subst hqe
      apply iff_of_false
      · show ¬((rawRegexSplit ('/' :: fl)).isSome = true)
        have hnone : rawRegexSplit ('/' :: fl) = none := by
          show (if ('/' : Char) = '/' then
              match List.drop (List.takeWhile isRegexFlag fl.reverse).length
                  fl.reverse with
              | d :: rem =>
                if d = '/' then
                  some (rem.reverse, (List.takeWhile isRegexFlag fl.reverse).reverse)
                else none
              | [] => none
            else none) = none
          rw [if_pos rfl]
          have htw : List.takeWhile isRegexFlag fl.reverse = fl.reverse :=
            takeWhile_all _ _ (fun c hc => hfl c (List.mem_reverse.mp hc))
          rw [htw, List.drop_length]
        rw [hnone]
        simp
      · intro hnot
        apply hnot
        rcases hfl5 with rfl | rfl | rfl | rfl | rfl <;> simp
    | cons c a2 =>
      have hcr : ('/' : Char) :: rest = c :: (a2 ++ '/' :: fl) := by
        rw [← hrest, ha']
        rfl
      have hc1 : c = '/' := (List.cons.inj hcr).1.symm
      have hc2 : rest = a2 ++ '/' :: fl := (List.cons.inj hcr).2
      have hqd : q.data = '/' :: (a2 ++ '/' :: fl) := hc2 ▸ hrest
      apply iff_of_true
      · rw [show rawRegexSplit q.data =
            rawRegexSplit ('/' :: (a2 ++ '/' :: fl)) from by rw [hqd]]
        rw [rawRegexSplit_generic a2 fl hfl]
        rfl
      · exact not_in_five q a2 ('/' :: fl) hqd (by simp)
  rcases hends with (((h | h) | h) | h) | h
  · exact hmain [] (by simp) h
  · exact hmain ['i'] (by simp) h
  · exact hmain ['g'] (by simp) h
  · exact hmain ['g', 'i'] (by simp) h
  · exact hmain ['i', 'g'] (by simp) h

theorem extractRegex_isSome (q : String) :
    (extractRegex q).isSome = (extractRegexL q.data).isSome := by
  unfold extractRegex
  cases h : extractRegexL q.data with
  | none => rfl
  | some pf =>
    obtain ⟨p, fl⟩ := pf
    rfl

theorem extract_iff_raw (cs : List Char) :
    (extractRegexL cs).isSome = true ↔
      ∃ p fl, rawRegexSplit cs = some (p, fl) ∧
        p.all (fun c => !isLineTerm c) = true := by
  cases hr : rawRegexSplit cs with
  | none =>
    have hE : extractRegexL cs = none := by
      unfold extractRegexL
      rw [hr]
    rw [hE]
    apply iff_of_false
    · simp
    · rintro ⟨p2, fl2, hr2, _⟩
      exact absurd hr2 (by simp)
  | some pf =>
    obtain ⟨p, fl⟩ := pf
    have hE : extractRegexL cs =
        if p.all (fun c => !isLineTerm c) then some (p, fl) else none := by
      unfold extractRegexL
      rw [hr]
    by_cases hc : p.all (fun c => !isLineTerm c) = true
    · rw [hE, if_pos hc]
      apply iff_of_true
      · rfl
      · exact ⟨p, fl, rfl, hc⟩
    · rw [hE, if_neg hc]
      apply iff_of_false
      · simp
      · rintro ⟨p2, fl2, hr2, hc2⟩
        injection hr2 with h3
        have h4 : p = p2 := congrArg Prod.fst h3
        rw [← h4] at hc2
        exact hc hc2

theorem extract_iff_raw_str (q : String) :
    (extractRegex q).isSome = true ↔
      ∃ p fl, rawRegexSplit q.data = some (p, fl) ∧
        p.all (fun c => !isLineTerm c) = true := by
  rw [extractRegex_isSome]
  exact extract_iff_raw q.data

theorem codeIsRegex_char (q : String) :
    codeIsRegex q = true ↔ (jsStartsWith q "/" = true ∧
      ∃ fl ∈ (["", "i", "g", "gi", "ig"] : List String),
        jsEndsWith q ("/" ++ fl) = true) := by
  unfold codeIsRegex
  rw [Bool.and_eq_true]
  constructor
  · rintro ⟨h1, h2⟩
    refine ⟨h1, ?_⟩
    simp only [Bool.or_eq_true] at h2
    rcases h2 with (((h | h) | h) | h) | h
    · exact ⟨"", by simp, h⟩
    · exact ⟨"i", by simp, h⟩
    · exact ⟨"g", by simp, h⟩
    · exact ⟨"gi", by simp, h⟩
    · exact ⟨"ig", by simp, h⟩
  · rintro ⟨h1, fl, hfl, h2⟩
    refine ⟨h1, ?_⟩
    simp only [Bool.or_eq_true]
    have hcases : fl = "" ∨ fl = "i" ∨ fl = "g" ∨ fl = "gi" ∨ fl = "ig" := by
      simpa using hfl
    rcases hcases with rfl | rfl | rfl | rfl | rfl
    · exact Or.inl (Or.inl (Or.inl (Or.inl h2)))
    · exact Or.inl (Or.inl (Or.inl (Or.inr h2)))
    · exact Or.inl (Or.inl (Or.inr h2))
    · exact Or.inl (Or.inr h2)
    · exact Or.inr h2

theorem matchEntry_fallback (E : RegexEngine) (q nm p fl : String)
    (hq : codeIsRegex q = true) (he : extractRegex q = some (p, fl))
    (hc : E.compiles p fl = false) :
    matchEntry E q nm = litMatch q (jsSliceDrop3 nm) nm := by
  unfold matchEntry
  rw [hq, he]
  simp only [if_true]
  rw [hc]
  simp

/-- C2 counterexample: `/a/m` begins with `/` and ends with `/` followed
by the flag `m` from `{g, i, m, u, y}`, so the claim classifies it as a
regular expression, but the code does not; the query `/` is classified
by the code yet pattern/flag extraction fails on it (no second
delimiter); and the classified query `/\n/` also fails extraction,
because `.` in the extraction regex never matches a line terminator —
so for neither query is anything extracted or compiled. -/
theorem claim_c2_counterexample :
    specRegexQuery "/a/m" = true ∧ codeIsRegex "/a/m" = false ∧
    codeIsRegex "/" = true ∧ extractRegex "/" = none ∧
    codeIsRegex "/\n/" = true ∧ extractRegex "/\n/" = none := by decide

/-- C2 amended: the code classifies a query as a delimited regular
expression exactly when it begins with `/` and ends with `/` followed by
one of the flag strings `""`, `"i"`, `"g"`, `"gi"`, `"ig"` (not an
arbitrary combination over `{g, i, m, u, y}`); for a classified query,
the positional split of `/pattern/flags` — at the last `/` followed only
by flag characters — succeeds exactly when the query is not one of the
five bare suffix strings `/`, `/i`, `/g`, `/gi`, `/ig` themselves, and
the extraction match succeeds exactly when the split does and the
pattern part contains no line terminator (`.` never matches one), the
failing queries matching nothing; when extraction succeeds but
compilation fails, the match falls back silently to case-insensitive
literal substring matching. -/
theorem claim_c2_classification_amended :
    (∀ q, codeIsRegex q = true ↔ (jsStartsWith q "/" = true ∧
      ∃ fl ∈ (["", "i", "g", "gi", "ig"] : List String),
        jsEndsWith q ("/" ++ fl) = true)) ∧
    (∀ q, codeIsRegex q = true →
      (((rawRegexSplit q.data).isSome = true ↔
          q ∉ (["/", "/i", "/g", "/gi", "/ig"] : List String)) ∧
        ((extractRegex q).isSome = true ↔
          ∃ p fl, rawRegexSplit q.data = some (p, fl) ∧
            p.all (fun c => !isLineTerm c) = true))) ∧
    (∀ E q nm p fl, codeIsRegex q = true → extractRegex q = some (p, fl) →
      E.compiles p fl = false →
      matchEntry E q nm = litMatch q (jsSliceDrop3 nm) nm) :=
  ⟨codeIsRegex_char,
    fun q hq => ⟨codeIsRegex_extract q hq, extract_iff_raw_str q⟩,
    matchEntry_fallback⟩

/-- C2 witness: the amended theorem applied to the queries `/ab/gi` and
`/ab/` and an engine on which compilation fails. -/
theorem claim_c2_witness :
    codeIsRegex "/ab/gi" = true ∧
    (rawRegexSplit (String.data "/ab/gi")).isSome = true ∧
    (extractRegex "/ab/gi").isSome = true ∧
    matchEntry trivialEngine "/ab/" "x.md" =
      litMatch "/ab/" (jsSliceDrop3 "x.md") "x.md" :=
  ⟨(claim_c2_classification_amended.1 "/ab/gi").mpr
      ⟨by decide, "gi", by simp, by decide⟩,
    ((claim_c2_classification_amended.2.1 "/ab/gi" (by decide)).1).mpr (by decide),
    ((claim_c2_classification_amended.2.1 "/ab/gi" (by decide)).2).mpr
      ⟨['a', 'b'], ['g', 'i'], by decide, by decide⟩,
    claim_c2_classification_amended.2.2 trivialEngine "/ab/" "x.md" "ab" ""
      (by decide) (by decide) (by decide)⟩

theorem interSl_concat_last (xs : List (List Char)) (pl z : List Char) :
    interSl (xs ++ [pl ++ z]) = interSl (xs ++ [pl]) ++ z := by
  induction xs with
  | nil => simp [interSl]
  | cons s rest ih =>
    rw [List.cons_append, List.cons_append, interSl_cons s (rest ++ [pl ++ z]),
      interSl_cons s (rest ++ [pl])]
    have h1 : rest ++ [pl ++ z] ≠ [] := by simp
    have h2 : rest ++ [pl] ≠ [] := by simp
    rw [if_neg h1, if_neg h2, ih]
    simp

theorem abs_last_decomp (A : List (List Char)) (pl : List Char) :
    ∃ x, '/' :: interSl (A ++ [pl]) = x ++ '/' :: pl := by
  cases A with
  | nil => exact ⟨[], by simp [interSl]⟩
  | cons a as =>
    refine ⟨'/' :: interSl (a :: as), ?_⟩
    rw [interSl_append (a :: as) [pl] (by simp) (by simp)]
    simp [interSl]

theorem extnameL_clean (A : List (List Char)) (pl : List Char)
    (h1 : pl ≠ []) (h2 : '/' ∉ pl) :
    extnameL ('/' :: interSl (A ++ [pl])) = extOfBase pl := by
  obtain ⟨x, hx⟩ := abs_last_decomp A pl
  unfold extnameL
  rw [hx, baseRun_append x pl h1 h2]

theorem startsWith_clean (rsegs psegs : List (List Char)) :
    jsStartsWith ⟨'/' :: interSl (rsegs ++ psegs)⟩ ⟨'/' :: interSl rsegs⟩ = true := by
  cases rsegs with
  | nil =>
    apply jsStartsWith_of_data _ _ (interSl psegs)
    show ('/' :: interSl ([] ++ psegs) : List Char) = ('/' :: interSl []) ++ interSl psegs
    simp [interSl]
  | cons r rs =>
    cases psegs with
    | nil =>
      apply jsStartsWith_of_data _ _ []
      simp
    | cons s ss =>
      apply jsStartsWith_of_data _ _ ('/' :: interSl (s :: ss))
      show ('/' :: interSl ((r :: rs) ++ (s :: ss)) : List Char) =
        ('/' :: interSl (r :: rs)) ++ '/' :: interSl (s :: ss)
      rw [interSl_append (r :: rs) (s :: ss) (by simp) (by simp)]
      rfl

theorem vfull_rel (root p : String) (h : isAbsolute p = false) :
    vfull root p = pjoin root p := by
  unfold vfull
  rw [h]
  rfl

theorem empty_ne_md : ("" : String) ≠ ".md" := by decide

theorem validate_noext_md (rsegs ps0 : List (List Char)) (pl : List Char)
    (hr : plainSegs rsegs) (hp : plainSegs (ps0 ++ [pl]))
    (hext : extOfBase pl = []) :
    validatePath ⟨'/' :: interSl rsegs⟩ ⟨interSl (ps0 ++ [pl])⟩ =
      .ok ⟨'/' :: interSl (rsegs ++ (ps0 ++ [pl])) ++ ['.', 'm', 'd']⟩ := by
  have hpne : ps0 ++ [pl] ≠ [] := by simp
  have hplpl : plainSeg pl := hp pl (by simp)
  obtain ⟨c, t, hct, hc⟩ := head?_of_plain_interSl (ps0 ++ [pl]) hp hpne
  have habs : isAbsolute ⟨interSl (ps0 ++ [pl])⟩ = false :=
    isAbsolute_of_head _ c t hct hc
  have hvf : vfull ⟨'/' :: interSl rsegs⟩ ⟨interSl (ps0 ++ [pl])⟩ =
      ⟨'/' :: interSl (rsegs ++ (ps0 ++ [pl]))⟩ := by
    rw [vfull_rel _ _ habs]
    exact pjoin_clean rsegs (ps0 ++ [pl]) hr hp hpne
  have hguard : jsStartsWith (vfull ⟨'/' :: interSl rsegs⟩ ⟨interSl (ps0 ++ [pl])⟩)
      ⟨'/' :: interSl rsegs⟩ = true := by
    rw [hvf]
    exact startsWith_clean rsegs (ps0 ++ [pl])
  have hextF : extname (vfull ⟨'/' :: interSl rsegs⟩ ⟨interSl (ps0 ++ [pl])⟩) = "" := by
    rw [hvf]
    unfold extname
    apply String.ext
    show extnameL ('/' :: interSl (rsegs ++ (ps0 ++ [pl]))) = "".data
    rw [show rsegs ++ (ps0 ++ [pl]) = (rsegs ++ ps0) ++ [pl] from by simp]
    rw [extnameL_clean (rsegs ++ ps0) pl hplpl.1 hplpl.2.1, hext]
  unfold validatePath
  rw [if_pos hguard, hextF, if_neg empty_ne_md, hvf]
  rfl

theorem plainSeg_md (pl : List Char) (h : plainSeg pl) :
    plainSeg (pl ++ ['.', 'm', 'd']) := by
  obtain ⟨h1, h2, _, _⟩ := h
  refine ⟨by simp, ?_, ?_, ?_⟩
  · intro hmem
    rcases List.mem_append.mp hmem with hm | hm
    · exact h2 hm
    · simp at hm
  · intro he
    have := congrArg List.length he
    simp at this
  · intro he
    have := congrArg List.length he
    simp at this

theorem validate_withext_md (rsegs ps0 : List (List Char)) (pl : List Char)
    (hr : plainSegs rsegs) (hp : plainSegs (ps0 ++ [pl])) :
    validatePath ⟨'/' :: interSl rsegs⟩ ⟨interSl (ps0 ++ [pl]) ++ ['.', 'm', 'd']⟩ =
      .ok ⟨'/' :: interSl (rsegs ++ (ps0 ++ [pl])) ++ ['.', 'm', 'd']⟩ := by
  have hplpl : plainSeg pl := hp pl (by simp)
  have hp2 : plainSegs (ps0 ++ [pl ++ ['.', 'm', 'd']]) := by
    intro s hs
    rcases List.mem_append.mp hs with hm | hm
    · exact hp s (List.mem_append.mpr (Or.inl hm))
    · simp at hm
      rw [hm]
      exact plainSeg_md pl hplpl
  have hpne2 : ps0 ++ [pl ++ ['.', 'm', 'd']] ≠ [] := by simp
  have hinter : interSl (ps0 ++ [pl ++ ['.', 'm', 'd']]) =
      interSl (ps0 ++ [pl]) ++ ['.', 'm', 'd'] := interSl_concat_last ps0 pl _
  obtain ⟨c, t, hct, hc⟩ := head?_of_plain_interSl _ hp2 hpne2
  have habs : isAbsolute ⟨interSl (ps0 ++ [pl]) ++ ['.', 'm', 'd']⟩ = false := by
    apply isAbsolute_of_head _ c t _ hc
    rw [← hinter]
    exact hct
  have hvf : vfull ⟨'/' :: interSl rsegs⟩ ⟨interSl (ps0 ++ [pl]) ++ ['.', 'm', 'd']⟩ =
      ⟨'/' :: interSl (rsegs ++ (ps0 ++ [pl ++ ['.', 'm', 'd']]))⟩ := by
    rw [vfull_rel _ _ habs]
    rw [show (⟨interSl (ps0 ++ [pl]) ++ ['.', 'm', 'd']⟩ : String) =
      ⟨interSl (ps0 ++ [pl ++ ['.', 'm', 'd']])⟩ from by rw [hinter]]
    exact pjoin_clean rsegs _ hr hp2 hpne2
  have hguard : jsStartsWith
      (vfull ⟨'/' :: interSl rsegs⟩ ⟨interSl (ps0 ++ [pl]) ++ ['.', 'm', 'd']⟩)
      ⟨'/' :: interSl rsegs⟩ = true := by
    rw [hvf]
    exact startsWith_clean rsegs _
  have hextF : extname
      (vfull ⟨'/' :: interSl rsegs⟩ ⟨interSl (ps0 ++ [pl]) ++ ['.', 'm', 'd']⟩) =
      ".md" := by
    rw [hvf]
    unfold extname
    apply String.ext
    show extnameL ('/' :: interSl (rsegs ++ (ps0 ++ [pl ++ ['.', 'm', 'd']]))) =
      (".md" : String).data
    rw [show rsegs ++ (ps0 ++ [pl ++ ['.', 'm', 'd']]) =
      (rsegs ++ ps0) ++ [pl ++ ['.', 'm', 'd']] from by simp]
    rw [extnameL_clean (rsegs ++ ps0) (pl ++ ['.', 'm', 'd'])
      (plainSeg_md pl hplpl).1 (plainSeg_md pl hplpl).2.1]
    rw [extOfBase_md pl hplpl.1]
  unfold validatePath
  rw [if_pos hguard, hextF, if_pos rfl, hvf]
  apply congrArg
  apply String.ext
  show '/' :: interSl (rsegs ++ (ps0 ++ [pl ++ ['.', 'm', 'd']])) =
    '/' :: interSl (rsegs ++ (ps0 ++ [pl])) ++ ['.', 'm', 'd']
  rw [show rsegs ++ (ps0 ++ [pl ++ ['.', 'm', 'd']]) =
    (rsegs ++ ps0) ++ [pl ++ ['.', 'm', 'd']] from by simp]
  rw [interSl_concat_last (rsegs ++ ps0) pl ['.', 'm', 'd']]
  simp

/-- C7 counterexample: `dir/` has no extension, yet resolving `dir/` and
resolving `dir/` + `.md` produce different NotePaths — the latter ends
in a duplicated `.md.md`, because `.md` is a dotfile name whose
`extname` is empty. -/
theorem claim_c7_counterexample :
    validatePath "/v" "dir/" = .ok "/v/dir/.md" ∧
    validatePath "/v" ("dir/" ++ ".md") = .ok "/v/dir/.md.md" ∧
    extname "dir/" = "" ∧
    ("/v/dir/.md" : String) ≠ "/v/dir/.md.md" ∧
    jsEndsWith "/v/dir/.md.md" ".md.md" = true := by decide

/-- C7 amended: `validatePath` keeps the full path unchanged when its
`extname` is exactly `.md` and otherwise appends `.md` to it (so `a.txt`
resolves to `a.txt.md`); and for every relative path whose segments are
plain names (nonempty, slash-free, not `.` or `..`) and whose final
segment has empty `extname`, resolving the path and resolving the path
with `.md` appended both yield the root-joined path with a single `.md`
suffix — in particular the suffix is not duplicated on such paths. -/
theorem claim_c7_suffix_amended :
    (∀ root p v, validatePath root p = .ok v →
      (extname (vfull root p) = ".md" ∧ v = vfull root p) ∨
      (extname (vfull root p) ≠ ".md" ∧ v = vfull root p ++ ".md")) ∧
    (∀ rsegs ps0 pl, plainSegs rsegs → plainSegs (ps0 ++ [pl]) →
      extOfBase pl = [] →
      validatePath ⟨'/' :: interSl rsegs⟩ ⟨interSl (ps0 ++ [pl])⟩ =
        .ok ⟨'/' :: interSl (rsegs ++ (ps0 ++ [pl])) ++ ['.', 'm', 'd']⟩ ∧
      validatePath ⟨'/' :: interSl rsegs⟩
          ⟨interSl (ps0 ++ [pl]) ++ ['.', 'm', 'd']⟩ =
        .ok ⟨'/' :: interSl (rsegs ++ (ps0 ++ [pl])) ++ ['.', 'm', 'd']⟩) :=
  ⟨fun root p v h => (validatePath_ok_elim root p v h).2,
    fun rsegs ps0 pl hr hp hext =>
      ⟨validate_noext_md rsegs ps0 pl hr hp hext,
        validate_withext_md rsegs ps0 pl hr hp⟩⟩

/-- C7 witness: the amended theorem applied to root `/v` and the base
path `notes/a`: both `notes/a` and `notes/a.md` resolve to
`/v/notes/a.md`. -/
theorem claim_c7_witness :
    validatePath "/v" "notes/a" = .ok "/v/notes/a.md" ∧
    validatePath "/v" "notes/a.md" = .ok "/v/notes/a.md" :=
  ⟨(claim_c7_suffix_amended.2 [['v']] [['n', 'o', 't', 'e', 's']] ['a']
      (by decide) (by decide) (by decide)).1,
    (claim_c7_suffix_amended.2 [['v']] [['n', 'o', 't', 'e', 's']] ['a']
      (by decide) (by decide) (by decide)).2⟩

theorem wfNameB_plain (n : String) (h : wfNameB n = true) : plainSeg n.data := by
  unfold wfNameB at h
  rw [Bool.and_eq_true, Bool.and_eq_true, Bool.and_eq_true] at h
  obtain ⟨⟨⟨h1, h2⟩, h3⟩, h4⟩ := h
  refine ⟨of_decide_eq_true h1, of_decide_eq_true h2, ?_, ?_⟩
  · intro he
    exact (of_decide_eq_true h3) (String.ext he)
  · intro he
    exact (of_decide_eq_true h4) (String.ext he)

theorem matchEntry_literal (E : RegexEngine) (q nm : String)
    (hq : codeIsRegex q = false) :
    matchEntry E q nm = litMatch q (jsSliceDrop3 nm) nm := by
  unfold matchEntry
  rw [hq]
  simp

theorem segsOfAbs_clean (segs : List (List Char)) (h : plainSegs segs) :
    segsOfAbs ⟨'/' :: interSl segs⟩ = segs := by
  unfold segsOfAbs
  show normSegsAux false (splitSegs ('/' :: interSl segs)) [] = segs
  rw [splitSegs_cons_slash]
  cases segs with
  | nil => rfl
  | cons s ss =>
    rw [splitSegs_interSl (s :: ss) (by simp) (fun u hu => (h u hu).2.1)]
    rw [normSegsAux_nil_seg, normSegsAux_plain false _ h []]
    simp

theorem relGo_skip (rsegs xs : List (List Char)) :
    relGo rsegs (rsegs ++ xs) = interSl xs := by
  induction rsegs with
  | nil => rfl
  | cons a fs ih =>
    show relGo (a :: fs) (a :: (fs ++ xs)) = _
    unfold relGo
    rw [if_pos rfl]
    exact ih

theorem relative_clean (rsegs xs : List (List Char)) (hr : plainSegs rsegs)
    (hx : plainSegs xs) (hxne : xs ≠ []) :
    relative ⟨'/' :: interSl rsegs⟩ ⟨'/' :: interSl (rsegs ++ xs)⟩ =
      ⟨interSl xs⟩ := by
  have hall : plainSegs (rsegs ++ xs) := by
    intro u hu
    rcases List.mem_append.mp hu with h | h
    · exact hr u h
    · exact hx u h
  have hxscons : ∃ x xs2, xs = x :: xs2 := by
    cases xs with
    | nil => exact absurd rfl hxne
    | cons x xs2 => exact ⟨x, xs2, rfl⟩
  obtain ⟨x, xs2, rfl⟩ := hxscons
  have hxone : interSl (x :: xs2) ≠ [] :=
    interSl_cons_ne_nil x xs2 (hx x (by simp)).1
  unfold relative
  have h1 : segsOfAbs ⟨'/' :: interSl rsegs⟩ = rsegs := segsOfAbs_clean rsegs hr
  have h2 : segsOfAbs ⟨'/' :: interSl (rsegs ++ x :: xs2)⟩ = rsegs ++ x :: xs2 :=
    segsOfAbs_clean _ hall
  have hne : resolveAbs ⟨'/' :: interSl rsegs⟩ ≠
      resolveAbs ⟨'/' :: interSl (rsegs ++ x :: xs2)⟩ := by
    unfold resolveAbs
    rw [h1, h2]
    intro he
    have hd : ('/' :: interSl rsegs : List Char) =
        '/' :: interSl (rsegs ++ x :: xs2) := congrArg String.data he
    have hd2 : interSl rsegs = interSl (rsegs ++ x :: xs2) := by
      simpa using hd
    cases rsegs with
    | nil =>
      rw [List.nil_append] at hd2
      exact hxone (hd2.symm.trans rfl)
    | cons r rs =>
      rw [interSl_append (r :: rs) (x :: xs2) (by simp) (by simp)] at hd2
      have := congrArg List.length hd2
      simp at this
  rw [if_neg hne, h1, h2, relGo_skip]

theorem pjoin_clean_name (dsegs : List (List Char)) (n : String)
    (hd : plainSegs dsegs) (hn : plainSeg n.data) :
    pjoin ⟨'/' :: interSl dsegs⟩ n = ⟨'/' :: interSl (dsegs ++ [n.data])⟩ := by
  have h0 : (⟨interSl [n.data]⟩ : String) = n := String.ext rfl
  rw [← h0]
  exact pjoin_clean dsegs [n.data] hd
    (fun s hs => by simp at hs; rw [hs]; exact hn) (by simp)

theorem searchDir_abs (E : RegexEngine) (q : String) (hq : codeIsRegex q = false) :
    ∀ (t : List Entry), wfEntriesB t = true → ∀ (dsegs : List (List Char)),
      plainSegs dsegs → dsegs ≠ [] →
      searchDirectory E q ⟨'/' :: interSl dsegs⟩ t =
        (specSearch q t).map (fun r => ⟨'/' :: interSl dsegs ++ '/' :: r.data⟩)
  | [], _, dsegs, _, _ => by
    simp [searchDirectory, specSearch]
  | .file n :: rest, hwf, dsegs, hd, hdne => by
    have hwf2 : wfNameB n = true ∧ wfEntriesB rest = true := by
      have h0 := hwf
      unfold wfEntriesB at h0
      rw [Bool.and_eq_true] at h0
      exact h0
    have hrec := searchDir_abs E q hq rest hwf2.2 dsegs hd hdne
    simp only [searchDirectory, specSearch]
    rw [List.map_append, hrec, matchEntry_literal E q n hq]
    by_cases hgate : (jsEndsWith n ".md" && litMatch q (jsSliceDrop3 n) n) = true
    · rw [if_pos hgate, if_pos hgate]
      rw [pjoin_clean_name dsegs n hd (wfNameB_plain n hwf2.1)]
      have hseg : interSl (dsegs ++ [n.data]) = interSl dsegs ++ '/' :: n.data := by
        rw [interSl_append dsegs [n.data] hdne (by simp)]
        rfl
      rw [List.map_singleton, hseg]
      rfl
    · rw [if_neg hgate, if_neg hgate]
      simp
  | .dir n ch :: rest, hwf, dsegs, hd, hdne => by
    have hwf2 : wfNameB n = true ∧ wfEntriesB ch = true ∧ wfEntriesB rest = true := by
      have h0 := hwf
      unfold wfEntriesB at h0
      rw [Bool.and_eq_true, Bool.and_eq_true] at h0
      exact ⟨h0.1.1, h0.1.2, h0.2⟩
    have hrec := searchDir_abs E q hq rest hwf2.2.2 dsegs hd hdne
    have hplain : plainSegs (dsegs ++ [n.data]) := by
      intro s hs
      rcases List.mem_append.mp hs with hm | hm
      · exact hd s hm
      · simp at hm
        rw [hm]
        exact wfNameB_plain n hwf2.1
    have hrecCh := searchDir_abs E q hq ch hwf2.2.1 (dsegs ++ [n.data])
      hplain (by simp)
    simp only [searchDirectory, specSearch]
    rw [List.map_append, hrec]
    by_cases hdot : jsStartsWith n "." = true
    · rw [if_pos hdot, if_pos hdot]
      simp
    · rw [if_neg hdot, if_neg hdot]
      rw [pjoin_clean_name dsegs n hd (wfNameB_plain n hwf2.1), hrecCh,
        List.map_map]
      apply congrArg₂ _ _ rfl
      apply List.map_congr_left
      intro r _
      apply String.ext
      show '/' :: interSl (dsegs ++ [n.data]) ++ '/' :: r.data =
        '/' :: interSl dsegs ++ '/' :: (n ++ "/" ++ r).data
      have hseg : interSl (dsegs ++ [n.data]) = interSl dsegs ++ '/' :: n.data := by
        rw [interSl_append dsegs [n.data] hdne (by simp)]
        rfl
      have hnr : (n ++ "/" ++ r).data = n.data ++ '/' :: r.data := by
        rw [strData_append, strData_append]
        simp
      rw [hseg, hnr]
      simp

theorem specSearch_clean (q : String) :
    ∀ (t : List Entry), wfEntriesB t = true → ∀ r ∈ specSearch q t,
      ∃ xs, xs ≠ [] ∧ plainSegs xs ∧ r.data = interSl xs
  | [], _ => by simp [specSearch]
  | .file n :: rest, hwf => by
    have hwf2 : wfNameB n = true ∧ wfEntriesB rest = true := by
      have h0 := hwf
      unfold wfEntriesB at h0
      rw [Bool.and_eq_true] at h0
      exact h0
    intro r hr
    simp only [specSearch] at hr
    rcases List.mem_append.mp hr with hm | hm
    · have hrn : r = n := by
        by_cases hgate : (jsEndsWith n ".md" && litMatch q (jsSliceDrop3 n) n) = true
        · rw [if_pos hgate] at hm
          simpa using hm
        · rw [if_neg hgate] at hm
          simp at hm
      refine ⟨[n.data], by simp, ?_, by rw [hrn]; rfl⟩
      intro s hs
      simp at hs
      rw [hs]
      exact wfNameB_plain n hwf2.1
    · exact specSearch_clean q rest hwf2.2 r hm
  | .dir n ch :: rest, hwf => by
    have hwf2 : wfNameB n = true ∧ wfEntriesB ch = true ∧ wfEntriesB rest = true := by
      have h0 := hwf
      unfold wfEntriesB at h0
      rw [Bool.and_eq_true, Bool.and_eq_true] at h0
      exact ⟨h0.1.1, h0.1.2, h0.2⟩
    intro r hr
    simp only [specSearch] at hr
    rcases List.mem_append.mp hr with hm | hm
    · by_cases hdot : jsStartsWith n "." = true
      · rw [if_pos hdot] at hm
        simp at hm
      · rw [if_neg hdot] at hm
        obtain ⟨r2, hr2, hrr⟩ := List.mem_map.mp hm
        obtain ⟨xs2, hxs2ne, hxs2p, hxs2d⟩ := specSearch_clean q ch hwf2.2.1 r2 hr2
        refine ⟨n.data :: xs2, by simp, ?_, ?_⟩
        · intro s hs
          rcases List.mem_cons.mp hs with hs1 | hs1
          · rw [hs1]
            exact wfNameB_plain n hwf2.1
          · exact hxs2p s hs1
        · rw [← hrr]
          have h1 : (n ++ "/" ++ r2).data = n.data ++ '/' :: r2.data := by
            rw [strData_append, strData_append]
            simp
          rw [h1, hxs2d, interSl_cons]
          rw [if_neg hxs2ne]
    · exact specSearch_clean q rest hwf2.2.2 r hm

/-- C8: for a literal (non-regex) query, the `search_notes` pipeline —
`findNotes` from a well-formed vault tree at a clean absolute root,
followed by the handler's `path.relative` mapping — returns exactly the
root-relative paths of the declarative depth-first walk: dot-directories
are never descended into, only `.md` files are considered, a file
matches when its stripped or full name contains the query
case-insensitively, and results appear in traversal order. -/
theorem claim_c8_literal_search :
    ∀ (E : RegexEngine) (q : String) (rsegs : List (List Char)) (t : List Entry),
      codeIsRegex q = false → plainSegs rsegs → rsegs ≠ [] →
      wfEntriesB t = true →
      (searchDirectory E q ⟨'/' :: interSl rsegs⟩ t).map
        (fun p => relative ⟨'/' :: interSl rsegs⟩ p) = specSearch q t := by
  intro E q rsegs t hq hr hrne hwf
  rw [searchDir_abs E q hq t hwf rsegs hr hrne, List.map_map]
  have hid : specSearch q t = (specSearch q t).map id := by simp
  conv_rhs => rw [hid]
  apply List.map_congr_left
  intro r hrmem
  obtain ⟨xs, hxne, hxp, hxd⟩ := specSearch_clean q t hwf r hrmem
  show relative ⟨'/' :: interSl rsegs⟩ ⟨'/' :: interSl rsegs ++ '/' :: r.data⟩ = r
  have hcomb : ('/' :: interSl rsegs ++ '/' :: r.data : List Char) =
      '/' :: interSl (rsegs ++ xs) := by
    rw [hxd]
    cases rsegs with
    | nil => exact absurd rfl hrne
    | cons a as =>
      cases xs with
      | nil => exact absurd rfl hxne
      | cons x2 xs2 =>
        rw [interSl_append (a :: as) (x2 :: xs2) (by simp) (by simp)]
        rfl
  rw [show (⟨'/' :: interSl rsegs ++ '/' :: r.data⟩ : String) =
    ⟨'/' :: interSl (rsegs ++ xs)⟩ from String.ext hcomb]
  rw [relative_clean rsegs xs hr hxp hxne]
  exact String.ext hxd.symm


/-- C8 witness: the theorem applied to query `proj` on a tree containing
`Project.md`, a hidden `.obsidian` directory, a subdirectory with
`my-proj-notes.md`, and a non-markdown `readme.txt`; both matching files
are returned, root-relative, in traversal order. -/
theorem claim_c8_witness :
    (searchDirectory trivialEngine "proj" "/v"
        [.file "Project.md", .dir ".obsidian" [.file "secret.md"],
          .dir "sub" [.file "my-proj-notes.md"], .file "readme.txt"]).map
      (fun p => relative "/v" p) =
      specSearch "proj"
        [.file "Project.md", .dir ".obsidian" [.file "secret.md"],
          .dir "sub" [.file "my-proj-notes.md"], .file "readme.txt"] ∧
    specSearch "proj"
        [.file "Project.md", .dir ".obsidian" [.file "secret.md"],
          .dir "sub" [.file "my-proj-notes.md"], .file "readme.txt"] =
      ["Project.md", "sub/my-proj-notes.md"] :=
  ⟨claim_c8_literal_search trivialEngine "proj" [['v']]
      [.file "Project.md", .dir ".obsidian" [.file "secret.md"],
        .dir "sub" [.file "my-proj-notes.md"], .file "readme.txt"]
      (by decide) (by decide) (by decide) (by simp [wfEntriesB, wfNameB]),
    by simp [specSearch]; decide⟩
